import Mathlib

/-
Verification of the dbsqlx SQL-analysis tool (Go) against its specification.

The development shallowly embeds the string-processing core of the tool:
  * strings are embedded as `List Char` (`Str`), and the Go standard-library
    operations used by the code (strings.Split, strings.ReplaceAll,
    strings.Contains, strings.TrimSpace, strings.Join) are given faithful
    recursive definitions (`goSplitOn`, `goReplaceAll`, `containsSub`,
    `goTrimSpace`, `goJoin`);
  * `FilterWhereForTable` embeds cmd/root.go FilterWhereForTable;
  * the visitor `ColX.Enter` / `extractTableNames` / `extractWhereFilter`
    pipeline is embedded by `Extract` over a small statement model;
  * `runDump`'s per-statement output synthesis is embedded by `dumpStmtLines`.

Recursions that consume a variable number of characters per step are written
with an explicit fuel argument (initialised to the string length) so that all
definitions are structural and evaluate by kernel reduction.
-/

/-- Strings of the embedded program: lists of characters. -/
abbrev Str := List Char

/-- The single-quote character (written via its code point). -/
def sqC : Char := Char.ofNat 39

/-- The backquote character (written via its code point). -/
def bqC : Char := Char.ofNat 96

/-- Go `strings.Contains s pat`: `pat` occurs as a contiguous substring of `s`.
(Go returns true for the empty pattern, as does this definition.) -/
def containsSub (pat : Str) : Str → Bool
  | [] => pat.isPrefixOf []
  | c :: rest => pat.isPrefixOf (c :: rest) || containsSub pat rest

/-- Fuel-indexed splitter: Go `strings.Split s sep` for non-empty `sep`,
splitting around each non-overlapping occurrence of `sep`, left to right. -/
def splitOnFuel (sep : Str) : Nat → Str → List Str
  | _, [] => [[]]
  | 0, s => [s]
  | fuel + 1, c :: rest =>
    if sep.isPrefixOf (c :: rest) then
      [] :: splitOnFuel sep fuel ((c :: rest).drop sep.length)
    else
      match splitOnFuel sep fuel rest with
      | [] => [[c]]
      | p :: ps => (c :: p) :: ps

/-- Go `strings.Split s sep` (used only with non-empty separators; the
empty-separator case of Go is not exercised by the program). -/
def goSplitOn (s sep : Str) : List Str :=
  if sep = [] then [s] else splitOnFuel sep s.length s

/-- Fuel-indexed replacement: Go `strings.ReplaceAll s old new` for non-empty
`old`, replacing non-overlapping occurrences left to right. -/
def replaceAllFuel (old new : Str) : Nat → Str → Str
  | _, [] => []
  | 0, s => s
  | fuel + 1, c :: rest =>
    if old.isPrefixOf (c :: rest) then
      new ++ replaceAllFuel old new fuel ((c :: rest).drop old.length)
    else
      c :: replaceAllFuel old new fuel rest

/-- Go `strings.ReplaceAll s old new` (the program only ever passes a
non-empty `old`; Go's empty-pattern insertion behaviour is not exercised). -/
def goReplaceAll (s old new : Str) : Str :=
  if old = [] then s else replaceAllFuel old new s.length s

/-- Whitespace predicate of Go `strings.TrimSpace` (`unicode.IsSpace`),
restricted to the Latin-1 range actually reachable in the program's inputs. -/
def goIsSpace (c : Char) : Bool :=
  c = ' ' || c = '\t' || c = '\n' || c = '\r' ||
    c = Char.ofNat 11 || c = Char.ofNat 12 || c = Char.ofNat 133 || c = Char.ofNat 160

/-- Go `strings.TrimSpace`: drop whitespace from both ends. -/
def goTrimSpace (s : Str) : Str :=
  (((s.dropWhile goIsSpace).reverse).dropWhile goIsSpace).reverse

/-- Go `strings.Join xs sep`. -/
def goJoin (sep : Str) (xs : List Str) : Str :=
  List.intercalate sep xs

/-- The conjunction separator `" and "` used throughout the program. -/
def andSep : Str := (" and ").toList

/-- Shorthand for embedding Lean string literals as `Str`. -/
def toL (s : String) : Str := s.toList

/-- The per-condition classification step of `FilterWhereForTable`
(the body of the loop over `conditions` in cmd/root.go): trim the condition;
keep it with all occurrences of `tableName ++ "."` removed when it contains
that substring; otherwise discard it when it contains `tbl ++ "."` for any
known table `tbl`; otherwise keep the trimmed condition unchanged. -/
def classifyCond (tableName : Str) (allTables : List Str) (cond : Str) : Option Str :=
  let c := goTrimSpace cond
  if containsSub (tableName ++ ['.']) c then
    some (goReplaceAll c (tableName ++ ['.']) [])
  else if allTables.any (fun tbl => containsSub (tbl ++ ['.']) c) then
    none
  else
    some c

/-- The retained conditions of `FilterWhereForTable` (`relevantConditions`
in cmd/root.go), in original order. -/
def relevantConditions (whereFilter tableName : Str) (allTables : List Str) : List Str :=
  (goSplitOn whereFilter andSep).filterMap (classifyCond tableName allTables)

/-- Embedding of `FilterWhereForTable` (cmd/root.go): extract the WHERE
conditions relevant to one table. -/
def FilterWhereForTable (whereFilter tableName : Str) (allTables : List Str) : Str :=
  if whereFilter = [] then []
  else if allTables.length ≤ 1 then whereFilter
  else
    let relevant := relevantConditions whereFilter tableName allTables
    if relevant.length = 0 then [] else goJoin andSep relevant

/-- Definition following the words of the specification of the splitter for
multi-table statements (spec §4.3 / claim C1), literally: split on `" and "`,
keep a condition with the target prefix occurrences removed when it contains
`<target>.`, discard it when it contains any other known table's `.` prefix,
otherwise keep it UNMODIFIED; rejoin with `" and "` in original order.
No whitespace trimming is mentioned by the specification. -/
def specFilterForTableC1 (w t : Str) (ts : List Str) : Str :=
  goJoin andSep ((goSplitOn w andSep).filterMap (fun cond =>
    if containsSub (t ++ ['.']) cond then
      some (goReplaceAll cond (t ++ ['.']) [])
    else if ts.any (fun tb => (tb != t) && containsSub (tb ++ ['.']) cond) then
      none
    else
      some cond))

/-- The amended form of the C1 description: identical to
`specFilterForTableC1` except that every condition is first
whitespace-trimmed (as the code does), and the retained conditions are the
trimmed forms. -/
def specFilterForTableC1Trimmed (w t : Str) (ts : List Str) : Str :=
  goJoin andSep ((goSplitOn w andSep).filterMap (fun cond =>
    let c := goTrimSpace cond
    if containsSub (t ++ ['.']) c then
      some (goReplaceAll c (t ++ ['.']) [])
    else if ts.any (fun tb => (tb != t) && containsSub (tb ++ ['.']) c) then
      none
    else
      some c))

/-- Word characters of Go's regexp `\b` boundary: ASCII letters, digits and
underscore. -/
def isWordChar (c : Char) : Bool := c.isAlphanum || c == '_'

/-- The charset token handled by the renderer's regex `_UTF8MB4'(.*?)'`. -/
def utf8mb4Tok : Str := toL "_UTF8MB4"

/-- Scan to the first single quote, returning the text before it and the
text after it; fails at a newline or at the end of the string (Go's `.` in
a regex does not match a newline, and `(.*?)'` needs a closing quote). -/
def takeUntilQuote : Str → Option (Str × Str)
  | [] => none
  | c :: rest =>
    if c = sqC then some ([], rest)
    else if c = '\n' then none
    else
      match takeUntilQuote rest with
      | some (inner, r) => some (c :: inner, r)
      | none => none

/-- Fuel-indexed embedding of Go
`regexp.MustCompile("_UTF8MB4'(.*?)'").ReplaceAllString(s, "'$1'")`:
replace each leftmost occurrence of the token `_UTF8MB4` followed by a
quoted literal by the literal alone, left to right. -/
def stripCharsetFuel : Nat → Str → Str
  | _, [] => []
  | 0, s => s
  | n + 1, c :: rest =>
    if (utf8mb4Tok ++ [sqC]).isPrefixOf (c :: rest) then
      match takeUntilQuote ((c :: rest).drop (utf8mb4Tok ++ [sqC]).length) with
      | some (inner, r) => sqC :: (inner ++ sqC :: stripCharsetFuel n r)
      | none => c :: stripCharsetFuel n rest
    else c :: stripCharsetFuel n rest

/-- The charset-stripping step of the WhereRenderer (the `_UTF8MB4` regex
replacement in `extractWhereFilter`, cmd/root.go). -/
def stripCharset (s : Str) : Str := stripCharsetFuel s.length s

/-- Fuel-indexed embedding of one alias-substitution pass: Go
`regexp.MustCompile("\b" + alias + "\.").ReplaceAllString(s, table + ".")`.
The Boolean argument records whether the previously scanned character was a
word character (`\b` holds when that differs from the wordness of the
current character; at the start of the string the previous character counts
as a non-word character). -/
def replaceAliasDotFuel (aliasN table : Str) : Nat → Bool → Str → Str
  | _, _, [] => []
  | 0, _, s => s
  | n + 1, prevW, c :: rest =>
    if ((prevW != isWordChar c) && (aliasN ++ ['.']).isPrefixOf (c :: rest)) then
      table ++ '.' ::
        replaceAliasDotFuel aliasN table n false ((c :: rest).drop (aliasN ++ ['.']).length)
    else
      c :: replaceAliasDotFuel aliasN table n (isWordChar c) rest

/-- One alias-substitution pass of the WhereRenderer: replace each
occurrence of `<alias>.` starting at a word boundary with `<table>.`. -/
def replaceAliasDot (aliasN table s : Str) : Str :=
  replaceAliasDotFuel aliasN table s.length false s

/-- The alias-substitution step of the WhereRenderer: one pass per
`(alias, table)` entry, applied sequentially. (Go iterates its map in an
unspecified order; the embedding fixes the list order of the alias map.) -/
def substAliases (am : List (Str × Str)) (s : Str) : Str :=
  match am with
  | [] => s
  | (a, t) :: rest => substAliases rest (replaceAliasDot a t s)

/-- Whether a word-boundary occurrence of `a ++ "."` (the pattern of the
alias-substitution regex `\b<alias>\.`) exists in the string, scanning with
the same previous-character wordness state as `replaceAliasDotFuel`. -/
def hasAliasOcc (a : Str) : Bool → Str → Bool
  | _, [] => false
  | prevW, c :: rest =>
    ((prevW != isWordChar c) && (a ++ ['.']).isPrefixOf (c :: rest))
      || hasAliasOcc a (isWordChar c) rest

/-- A string made only of word characters (an identifier token). -/
def wordOnly (s : Str) : Bool := s.all isWordChar

/-- The textual normalization pipeline of `extractWhereFilter`
(cmd/root.go): strip backquotes, strip `_UTF8MB4` charset literal prefixes,
substitute aliases, lower `" AND "` to `" and "`. -/
def extractWhereFilterText (am : List (Str × Str)) (raw : Str) : Str :=
  let f := goReplaceAll raw [bqC] []
  let f := stripCharset f
  let f := substAliases am f
  goReplaceAll f (toL " AND ") (toL " and ")

/-- The visitor state of the extractor (struct `ColX`, cmd/root.go). The Go
map `AliasMap` is embedded as an insertion-ordered association list. -/
structure ColX where
  ColNames : List Str
  TableNames : List Str
  PrimaryTable : Str
  Action : Str
  WhereFilter : Str
  AliasMap : List (Str × Str)
deriving DecidableEq

/-- The initial visitor state built by `Extract` (all fields empty). -/
def ColX.empty : ColX := ⟨[], [], [], [], [], []⟩

/-- Go map assignment `m[k] = v` on the association-list embedding:
overwrite the entry for `k` if present, otherwise append. -/
def aliasMapSet (m : List (Str × Str)) (k v : Str) : List (Str × Str) :=
  if m.any (fun p => p.1 == k) then
    m.map (fun p => if p.1 == k then (k, v) else p)
  else m ++ [(k, v)]

/-- Result-set nodes as distinguished by `extractTableNames` (cmd/root.go):
a `TableSource` wrapping a `TableName` (with its `AsName` alias), a nested
`Join`, or anything else (a nil side, a subquery source, ...) which the
walker ignores. -/
inductive RSNode where
  | srcTable (name aliasN : Str)
  | srcOther
  | join (left right : RSNode)

/-- Embedding of `ColX.extractTableNames` (cmd/root.go): walk the join tree
left before right; for each `TableSource` leaf register the alias (if any)
and append the table name unless it is empty or already present. -/
def extractTableNames (v : ColX) : RSNode → ColX
  | .srcTable name aliasN =>
    let v1 := if aliasN = [] then v
      else {v with AliasMap := aliasMapSet v.AliasMap aliasN name}
    if name = [] then v1
    else if v1.TableNames.contains name then v1
    else {v1 with TableNames := v1.TableNames ++ [name]}
  | .srcOther => v
  | .join l r => extractTableNames (extractTableNames v l) r

/-- A WHERE field of a statement: absent, or an expression node carrying the
outcome of the external `Restore` serialization (`none` = Restore returned
an error) together with the column names of its subtree (which the visitor
harvests independently of serialization). -/
inductive WhereExpr where
  | noExpr
  | expr (restored : Option Str) (cols : List Str)

/-- Embedding of `ColX.extractWhereFilter` (cmd/root.go; the inlined copy
`extractWhereFilterFromExpr` used for UPDATE is textually identical): on a
successful serialization normalize the text and store it, on a failed one
leave `WhereFilter` untouched. The subtree's column names are harvested by
the traversal either way. -/
def extractWhereFilter (v : ColX) : WhereExpr → ColX
  | .noExpr => v
  | .expr restored cols =>
    let v1 := match restored with
      | none => v
      | some raw => {v with WhereFilter := extractWhereFilterText v.AliasMap raw}
    {v1 with ColNames := v1.ColNames ++ cols}

/-- The SELECT-specific data of a statement: the FROM join tree (if any),
the WHERE field, and the column names of the remaining children. -/
structure SelectData where
  fromRefs : Option RSNode
  whereE : WhereExpr
  cols : List Str

/-- The effect of visiting a `SelectStmt` node and its children on the
visitor state (`ColX.Enter`, SELECT case, cmd/root.go). -/
def extractSelectInto (v : ColX) (d : SelectData) : ColX :=
  let v1 := {v with Action := toL "SELECT"}
  let v2 := match d.fromRefs with
    | some j => extractTableNames v1 j
    | none => v1
  let v3 := extractWhereFilter v2 d.whereE
  {v3 with ColNames := v3.ColNames ++ d.cols}

/-- The table phase of the INSERT case of `ColX.Enter` (cmd/root.go): walk
the target table-refs clause when present. -/
def insertTablePhase (v : ColX) (refs : Option RSNode) : ColX :=
  match refs with
  | some j => extractTableNames v j
  | none => v

/-- The shared table phase of the UPDATE and DELETE cases of `ColX.Enter`
(cmd/root.go): if the table-refs clause is present, walk it and set
`PrimaryTable` to the first harvested table (when any). -/
def dmlTablePhase (v : ColX) (refs : Option RSNode) : ColX :=
  match refs with
  | some j =>
    let va := extractTableNames v j
    match va.TableNames with
    | t :: _ => {va with PrimaryTable := t}
    | [] => va
  | none => v

/-- Statement model: the statement shapes distinguished by `ColX.Enter`
(cmd/root.go). An `INSERT ... SELECT` carries its nested `SelectStmt`,
which the visitor reaches because `Enter` never skips children. The
single-table DDL forms carry `Option Str` table names (`none` = nil
pointer), and DROP carries its full list of table names. -/
inductive Stmt where
  | insertStmt (refs : Option RSNode) (cols : List Str) (sel : Option SelectData)
  | updateStmt (refs : Option RSNode) (whereE : WhereExpr) (cols : List Str)
  | deleteStmt (refs : Option RSNode) (whereE : WhereExpr) (cols : List Str)
  | selectStmt (d : SelectData)
  | alterStmt (table : Option Str) (cols : List Str)
  | createStmt (table : Option Str) (cols : List Str)
  | dropStmt (tables : List (Option Str))
  | truncateStmt (table : Option Str)

/-- Whether a statement is a DROP statement. -/
def Stmt.isDrop : Stmt → Bool
  | .dropStmt _ => true
  | _ => false

/-- Appending one directly read table name (the ALTER/CREATE/TRUNCATE/DROP
cases of `ColX.Enter`): append it verbatim unless nil or empty — note that
unlike `extractTableNames` there is no duplicate check here. -/
def appendDirectTable (v : ColX) (tb : Option Str) : ColX :=
  match tb with
  | some n => if n = [] then v else {v with TableNames := v.TableNames ++ [n]}
  | none => v

/-- Embedding of `Extract` (cmd/root.go): run the visitor over one
statement tree starting from the empty state. -/
def Extract : Stmt → ColX
  | .insertStmt refs cols sel =>
    let v2 := insertTablePhase {ColX.empty with Action := toL "INSERT"} refs
    let v3 := {v2 with ColNames := v2.ColNames ++ cols}
    match sel with
    | some d => extractSelectInto v3 d
    | none => v3
  | .updateStmt refs w cols =>
    let v2 := dmlTablePhase {ColX.empty with Action := toL "UPDATE"} refs
    let v3 := extractWhereFilter v2 w
    {v3 with ColNames := v3.ColNames ++ cols}
  | .deleteStmt refs w cols =>
    let v2 := dmlTablePhase {ColX.empty with Action := toL "DELETE"} refs
    let v3 := extractWhereFilter v2 w
    {v3 with ColNames := v3.ColNames ++ cols}
  | .selectStmt d => extractSelectInto ColX.empty d
  | .alterStmt tb cols =>
    let v1 := appendDirectTable {ColX.empty with Action := toL "ALTER"} tb
    {v1 with ColNames := v1.ColNames ++ cols}
  | .createStmt tb cols =>
    let v1 := appendDirectTable {ColX.empty with Action := toL "CREATE"} tb
    {v1 with ColNames := v1.ColNames ++ cols}
  | .dropStmt tbs =>
    tbs.foldl appendDirectTable {ColX.empty with Action := toL "DROP"}
  | .truncateStmt tb =>
    appendDirectTable {ColX.empty with Action := toL "TRUNCATE"} tb

/-- Agreement of two visitor results on every field except `WhereFilter`
(used to state that a failed WHERE serialization affects nothing else). -/
def sameFactsExceptWhere (a b : ColX) : Prop :=
  a.ColNames = b.ColNames ∧ a.TableNames = b.TableNames ∧
    a.PrimaryTable = b.PrimaryTable ∧ a.Action = b.Action ∧ a.AliasMap = b.AliasMap

/-- Connection-option rendering of `runDump` (cmd/dump.go): IP takes
precedence over host; each of host-or-ip, user, password appears only when
configured, always in that order, the password in `option=value` form.
(The inputs stand for the already whitespace-trimmed flag values.) -/
def connOptsOf (ip host user password : Str) : Str :=
  let connTarget := if ip ≠ [] then ip else if host ≠ [] then host else []
  (if connTarget ≠ [] then toL " -h " ++ connTarget else []) ++
    ((if user ≠ [] then toL " -u " ++ user else []) ++
      (if password ≠ [] then toL " --password=" ++ password else []))

/-- The tables `runDump` exports for one statement: only the primary table
for UPDATE/DELETE when it is set, otherwise the full tables list. -/
def tablesToDump (action primaryTable : Str) (tables : List Str) : List Str :=
  if (action = toL "UPDATE" ∨ action = toL "DELETE") ∧ primaryTable ≠ [] then
    [primaryTable]
  else tables

/-- The "naive" all-conditions filter of `runDump`: strip every
`<table>.` prefix, for all tables, from the full WHERE text. -/
def naiveFilter (w : Str) (tables : List Str) : Str :=
  tables.foldl (fun acc tbl => goReplaceAll acc (tbl ++ ['.']) []) w

/-- One export directive of `runDump`:
`mysqldump<connOpts> [--where="<filter>"] <database> <table>`, the
`--where` clause present exactly when the filter is non-empty. -/
def exportLine (connOpts filter db t : Str) : Str :=
  toL "mysqldump" ++ (connOpts ++
    ((if filter ≠ [] then toL " --where=\"" ++ (filter ++ toL "\"") else []) ++
      (' ' :: (db ++ ' ' :: t))))

/-- Lowercasing (ASCII) of Go `strings.ToLower`. -/
def lowerStr (s : Str) : Str := s.map Char.toLower

/-- The throwaway join alias of the helper block: first letter of the
lowercased table, or its first two letters on a clash with the target
table's first letter (Go indexes bytes; ASCII table names are assumed). -/
def joinHelperAlias (tbl tableName : Str) : Str :=
  let a := (lowerStr tbl).take 1
  if a = (lowerStr tableName).take 1 then (lowerStr tbl).take 2 else a

/-- The `JOIN <tbl> <alias> ON <join_condition> ` chunks of the helper
block's lookup query, one per non-target table, in table order. -/
def helperJoinChunks (tableName : Str) (tables : List Str) : Str :=
  tables.foldl (fun acc tbl =>
    acc ++ (if tbl = tableName then []
      else toL "JOIN " ++ tbl ++ ' ' :: joinHelperAlias tbl tableName
        ++ toL " ON <join_condition> ")) []

/-- The explanatory two-step helper block `runDump` prints ahead of the
export line for a cross-table UPDATE/DELETE (cmd/dump.go), line by line. -/
def helperBlock (connOpts db whereFilter tableName : Str) (tables : List Str) :
    List Str :=
  [toL "# To get exact rows matching all JOIN conditions:",
    toL "# Step 1: Get matching IDs",
    toL "# mysql -N -e \"SELECT e.id FROM " ++ tableName ++ toL " e "
      ++ helperJoinChunks tableName tables
      ++ toL "WHERE " ++ whereFilter ++ toL "\" " ++ db ++ toL " > /tmp/"
      ++ tableName ++ toL "_ids.txt",
    toL "# Step 2: Dump exact rows",
    toL "# mysqldump" ++ connOpts ++ toL " --where=\"id IN ($(cat /tmp/"
      ++ tableName ++ toL "_ids.txt | tr " ++ [sqC, '\\', 'n', sqC] ++ [' ']
      ++ [sqC, ',', sqC] ++ toL " | sed " ++ [sqC] ++ toL "s/,$//" ++ [sqC]
      ++ toL " ))\" " ++ db ++ ' ' :: tableName,
    toL "#",
    toL "# Or use partial filter (may include extra rows):"]

/-- The per-statement output of `runDump` (cmd/dump.go) as an ordered list
of lines, given one statement's extracted facts and the connection options:
a notice when no tables were found; otherwise, per table to dump, the
optional cross-table helper block followed by exactly one export
directive. -/
def dumpStmtLines (tables : List Str) (action whereFilter primaryTable : Str)
    (connOpts db : Str) : List Str :=
  if tables = [] then [toL "# No tables found in SQL statement"]
  else
    ((tablesToDump action primaryTable tables).map (fun tableName =>
      (if (action = toL "UPDATE" ∨ action = toL "DELETE") ∧ tableName = primaryTable
          ∧ 1 < tables.length
          ∧ naiveFilter whereFilter tables
              ≠ FilterWhereForTable whereFilter tableName tables
          ∧ FilterWhereForTable whereFilter tableName tables ≠ [] then
        helperBlock connOpts db whereFilter tableName tables
      else []) ++
        [exportLine connOpts (FilterWhereForTable whereFilter tableName tables)
          db tableName])).flatten

/-- A line is an export directive when it starts with `mysqldump` (comment
lines all start with `#`). -/
def isExportLine (l : Str) : Bool := (toL "mysqldump").isPrefixOf l

/-- Characters of a charset-introducer token after its leading underscore,
per the specification's description (uppercase/letter-only token — the
digits of `UTF8MB4` included). -/
def isCharsetTokChar (c : Char) : Bool := c.isUpper || c.isDigit

/-- Definition following the words of the specification for the renderer's
charset-prefix cleanup (spec §4.2 step 2 / claim C6): remove ANY
charset-prefix token (an underscore followed by an uppercase/digit run)
that immediately precedes a quoted string literal, keeping only the
literal. -/
def specStripAnyCharsetFuel : Nat → Str → Str
  | _, [] => []
  | 0, s => s
  | n + 1, c :: rest =>
    if c = '_' ∧ rest.takeWhile isCharsetTokChar ≠ []
        ∧ (rest.dropWhile isCharsetTokChar).head? = some sqC then
      match takeUntilQuote ((rest.dropWhile isCharsetTokChar).drop 1) with
      | some (inner, r) => sqC :: (inner ++ sqC :: specStripAnyCharsetFuel n r)
      | none => c :: specStripAnyCharsetFuel n rest
    else c :: specStripAnyCharsetFuel n rest

/-- The spec-worded charset cleanup (any uppercase token), run to
completion. -/
def specStripAnyCharset (s : Str) : Str := specStripAnyCharsetFuel s.length s

example :
    FilterWhereForTable (("users.active=1 and posts.published=TRUE").toList)
      (("users").toList) [("users").toList, ("posts").toList]
      = ("active=1").toList := by decide

example :
    Extract (.selectStmt ⟨some (.join (.srcTable (toL "users") (toL "u"))
        (.srcTable (toL "posts") (toL "p"))),
      .expr (some ([bqC] ++ toL "u" ++ [bqC] ++ toL "." ++ [bqC] ++ toL "active"
        ++ [bqC] ++ toL "=1")) [toL "active"],
      [toL "name", toL "title"]⟩)
    = ⟨[toL "active", toL "name", toL "title"], [toL "users", toL "posts"], [],
        toL "SELECT", toL "users.active=1",
        [(toL "u", toL "users"), (toL "p", toL "posts")]⟩ := by decide

example :
    (Extract (.dropStmt [some (toL "users"), some (toL "orders"),
        some (toL "products")])).TableNames
      = [toL "users", toL "orders", toL "products"] := by decide

example :
    FilterWhereForTable (("users.active=1 and posts.published=TRUE").toList)
      (("posts").toList) [("users").toList, ("posts").toList]
      = ("published=TRUE").toList := by decide

example :
    FilterWhereForTable
      (("users.active=1 and users.status=x and posts.published=TRUE").toList)
      (("users").toList) [("users").toList, ("posts").toList]
      = ("active=1 and status=x").toList := by decide

example :
    FilterWhereForTable (("users.active=1 and posts.published=TRUE").toList)
      (("orders").toList)
      [("users").toList, ("posts").toList, ("orders").toList] = [] := by decide

/-- C4: for a statement whose table list has exactly one entry,
`FilterWhereForTable` returns the canonical WHERE filter unchanged, whatever
the target table argument is. -/
theorem C4_single_table_filter_unchanged (w t : Str) (ts : List Str)
    (h : ts.length = 1) : FilterWhereForTable w t ts = w := by
  unfold FilterWhereForTable
  by_cases hw : w = []
  · simp [hw]
  · simp [hw, h]

/-- C4 witness: the theorem applied at the repository's own test input
(`"id=1 and status='active'"` over the single table `users`). -/
theorem C4_single_table_filter_unchanged_witness :
    [("users").toList].length = 1 ∧
      FilterWhereForTable
        (("id=1 and status=x").toList) (("users").toList) [("users").toList]
        = ("id=1 and status=x").toList :=
  ⟨by decide,
    C4_single_table_filter_unchanged (("id=1 and status=x").toList)
      (("users").toList) [("users").toList] (by decide)⟩

/-- Helper: `List.any` is determined pointwise. -/
theorem anyCongr {α : Type} (l : List α) (f g : α → Bool) (h : ∀ x, f x = g x) :
    l.any f = l.any g := by
  induction l with
  | nil => rfl
  | cons a l ih => simp [List.any, h a, ih]

/-- C1 counterexample: on the canonical filter rendered from
`WHERE name = 'A AND  B'` (a string literal containing `" AND  "`, hence a
double space after the lowered separator) and the table set
`[users, posts]`, the code's splitter trims the second fragment while the
claimed algorithm keeps it unmodified, so the two outputs differ. -/
theorem C1_counterexample :
    FilterWhereForTable
        (("name=").toList ++ [sqC] ++ ("A and  B").toList ++ [sqC])
        (("users").toList) [("users").toList, ("posts").toList]
      ≠ specFilterForTableC1
        (("name=").toList ++ [sqC] ++ ("A and  B").toList ++ [sqC])
        (("users").toList) [("users").toList, ("posts").toList] := by
  decide

/-- C1 (amended): for every non-empty WHERE filter and table list with more
than one table, `FilterWhereForTable` computes exactly the spec's
split/keep/discard/rejoin algorithm amended with whitespace trimming: each
condition is trimmed before classification, target-prefix occurrences are
removed from retained target conditions, conditions naming another known
table are discarded, and the remaining trimmed conditions are rejoined with
`" and "` in original order. -/
theorem C1_splitter_algorithm_amended (w t : Str) (ts : List Str)
    (hw : w ≠ []) (hts : 2 ≤ ts.length) :
    FilterWhereForTable w t ts = specFilterForTableC1Trimmed w t ts := by
  unfold FilterWhereForTable specFilterForTableC1Trimmed
  have hlen : ¬ ts.length ≤ 1 := by omega
  simp only [hw, if_false, hlen, if_true]
  have hrel : relevantConditions w t ts
      = (goSplitOn w andSep).filterMap (fun cond =>
          let c := goTrimSpace cond
          if containsSub (t ++ ['.']) c then
            some (goReplaceAll c (t ++ ['.']) [])
          else if ts.any (fun tb => (tb != t) && containsSub (tb ++ ['.']) c) then
            none
          else
            some c) := by
    unfold relevantConditions
    apply List.filterMap_congr
    intro cond _
    unfold classifyCond
    by_cases hc : containsSub (t ++ ['.']) (goTrimSpace cond) = true
    · simp [hc]
    · have hcf : containsSub (t ++ ['.']) (goTrimSpace cond) = false := by
        simpa using hc
      have hany : ts.any (fun tb => containsSub (tb ++ ['.']) (goTrimSpace cond))
          = ts.any (fun tb => (tb != t) && containsSub (tb ++ ['.']) (goTrimSpace cond)) := by
        apply anyCongr
        intro x
        by_cases hx : x = t
        · subst hx
          simp [hcf]
        · simp [bne_iff_ne, hx]
      simp only [hcf, Bool.false_eq_true, if_false]
      rw [hany]
  rw [hrel]
  generalize ((goSplitOn w andSep).filterMap fun cond =>
      let c := goTrimSpace cond
      if containsSub (t ++ ['.']) c then
        some (goReplaceAll c (t ++ ['.']) [])
      else if ts.any (fun tb => (tb != t) && containsSub (tb ++ ['.']) c) then
        none
      else
        some c) = l
  cases l with
  | nil => simp [goJoin, List.intercalate]
  | cons a l => simp

/-- C1 amended witness: the amended theorem applied at the repository's own
multi-table test filter. -/
theorem C1_splitter_algorithm_amended_witness :
    (("users.active=1 and posts.published=TRUE").toList ≠ ([] : Str)) ∧
      2 ≤ [("users").toList, ("posts").toList].length ∧
      FilterWhereForTable (("users.active=1 and posts.published=TRUE").toList)
          (("users").toList) [("users").toList, ("posts").toList]
        = specFilterForTableC1Trimmed
            (("users.active=1 and posts.published=TRUE").toList)
            (("users").toList) [("users").toList, ("posts").toList] :=
  ⟨by decide, by decide,
    C1_splitter_algorithm_amended
      (("users.active=1 and posts.published=TRUE").toList)
      (("users").toList) [("users").toList, ("posts").toList]
      (by decide) (by decide)⟩

/-- Helper: a non-empty pattern is not a prefix of the empty string. -/
theorem prefixOf_nil_false (p : Str) (hp : p ≠ []) : p.isPrefixOf ([] : Str) = false := by
  cases p with
  | nil => exact absurd rfl hp
  | cons c l => rfl

/-- Helper: a non-empty pattern does not occur in the empty string. -/
theorem containsSub_nil_false (p : Str) (hp : p ≠ []) : containsSub p [] = false := by
  unfold containsSub
  exact prefixOf_nil_false p hp

/-- Helper: appending a character makes any list non-empty. -/
theorem append_singleton_ne_nil (t : Str) (c : Char) : t ++ [c] ≠ [] := by
  cases t <;> simp

/-- Helper: if the separator does not occur in a string, the fuel splitter
returns the string whole. -/
theorem splitOnFuel_no_occ (sep : Str) (_hsep : sep ≠ []) :
    ∀ (n : Nat) (c : Str), c.length ≤ n → containsSub sep c = false →
      splitOnFuel sep n c = [c] := by
  intro n
  induction n with
  | zero =>
    intro c hc _
    cases c with
    | nil => rfl
    | cons a l => simp at hc
  | succ n ih =>
    intro c hc hno
    cases c with
    | nil => rfl
    | cons a l =>
      unfold containsSub at hno
      rw [Bool.or_eq_false_iff] at hno
      unfold splitOnFuel
      rw [hno.1]
      simp only [Bool.false_eq_true, if_false]
      rw [ih l (by simpa using Nat.le_of_succ_le_succ hc) hno.2]

/-- Helper: `goSplitOn` of a string not containing the separator. -/
theorem goSplitOn_no_occ (c sep : Str) (hsep : sep ≠ [])
    (hno : containsSub sep c = false) : goSplitOn c sep = [c] := by
  unfold goSplitOn
  rw [if_neg hsep]
  exact splitOnFuel_no_occ sep hsep c.length c (Nat.le_refl _) hno

/-- Helper: removal by `replaceAllFuel` never increases any character count. -/
theorem replaceAllFuel_count_le (p : Str) (a : Char) :
    ∀ (n : Nat) (s : Str),
      List.count a (replaceAllFuel p [] n s) ≤ List.count a s := by
  intro n
  induction n with
  | zero =>
    intro s
    cases s with
    | nil => simp [replaceAllFuel]
    | cons c l => simp [replaceAllFuel]
  | succ n ih =>
    intro s
    cases s with
    | nil => simp [replaceAllFuel]
    | cons c l =>
      unfold replaceAllFuel
      by_cases hpre : p.isPrefixOf (c :: l) = true
      · rw [hpre]
        simp only [if_true, List.nil_append]
        calc List.count a (replaceAllFuel p [] n ((c :: l).drop p.length))
            ≤ List.count a ((c :: l).drop p.length) := ih _
          _ ≤ List.count a (c :: l) :=
              (List.drop_sublist p.length (c :: l)).count_le a
      · rw [Bool.not_eq_true] at hpre
        rw [hpre]
        simp only [Bool.false_eq_true, if_false, List.count_cons]
        have := ih l
        omega

/-- Helper: when the non-empty pattern occurs in the string, removal by
`replaceAllFuel` removes at least one full copy of the pattern, counted
characterwise. -/
theorem replaceAllFuel_count_drop (p : Str) (a : Char) (hp : p ≠ []) :
    ∀ (n : Nat) (s : Str), s.length ≤ n → containsSub p s = true →
      List.count a (replaceAllFuel p [] n s) + List.count a p ≤ List.count a s := by
  intro n
  induction n with
  | zero =>
    intro s hs hocc
    cases s with
    | nil => rw [containsSub_nil_false p hp] at hocc; cases hocc
    | cons c l => simp at hs
  | succ n ih =>
    intro s hs hocc
    cases s with
    | nil => rw [containsSub_nil_false p hp] at hocc; cases hocc
    | cons c l =>
      unfold replaceAllFuel
      by_cases hpre : p.isPrefixOf (c :: l) = true
      · rw [hpre]
        simp only [if_true, List.nil_append]
        obtain ⟨q, hq⟩ := List.isPrefixOf_iff_prefix.mp hpre
        have hdrop : (c :: l).drop p.length = q := by
          rw [← hq, List.drop_left]
        rw [hdrop]
        have hcount : List.count a (c :: l) = List.count a p + List.count a q := by
          rw [← hq, List.count_append]
        rw [hcount]
        have := replaceAllFuel_count_le p a n q
        omega
      · rw [Bool.not_eq_true] at hpre
        rw [hpre]
        simp only [Bool.false_eq_true, if_false, List.count_cons]
        unfold containsSub at hocc
        rw [hpre, Bool.false_or] at hocc
        have := ih l (by simpa using Nat.le_of_succ_le_succ hs) hocc
        omega

/-- Helper: every character of an occurring pattern occurs in the string. -/
theorem containsSub_mem (p : Str) (a : Char) (ha : a ∈ p) :
    ∀ (s : Str), containsSub p s = true → a ∈ s := by
  intro s
  induction s with
  | nil =>
    intro h
    unfold containsSub at h
    cases p with
    | nil => cases ha
    | cons c l => cases h
  | cons c l ih =>
    intro h
    unfold containsSub at h
    rw [Bool.or_eq_true] at h
    cases h with
    | inl h => exact (List.isPrefixOf_iff_prefix.mp h).subset ha
    | inr h => exact List.mem_cons_of_mem c (ih h)

/-- Helper: for a table list with at least two entries, `FilterWhereForTable`
is the `" and "`-join of its retained conditions. -/
theorem fwft_eq_join (w t : Str) (ts : List Str) (hts : 2 ≤ ts.length) :
    FilterWhereForTable w t ts = goJoin andSep (relevantConditions w t ts) := by
  have hlen : ¬ ts.length ≤ 1 := by omega
  unfold FilterWhereForTable
  by_cases hw : w = []
  · subst hw
    simp only [if_true]
    have hsplit : goSplitOn ([] : Str) andSep = [[]] := by decide
    unfold relevantConditions
    rw [hsplit]
    have htrim : goTrimSpace ([] : Str) = [] := by decide
    have h1 : containsSub (t ++ ['.']) ([] : Str) = false :=
      containsSub_nil_false _ (append_singleton_ne_nil t '.')
    have h2 : (ts.any fun tbl => containsSub (tbl ++ ['.']) ([] : Str)) = false := by
      rw [anyCongr ts _ (fun _ => false)
        (fun x => containsSub_nil_false _ (append_singleton_ne_nil x '.'))]
      simp
    have hclass : classifyCond t ts [] = some [] := by
      simp only [classifyCond, htrim, h1, h2, Bool.false_eq_true, if_false]
    rw [List.filterMap_cons, hclass]
    simp [goJoin, List.intercalate]
  · simp only [hw, if_false, hlen, if_true]
    generalize relevantConditions w t ts = l
    cases l with
    | nil => simp [goJoin, List.intercalate]
    | cons a l => simp

/-- Helper: on a single atomic condition (no `" and "` inside) and at least
two tables, the splitter's output is exactly the per-condition
classification. -/
theorem fwft_single_condition (c t : Str) (ts : List Str)
    (hts : 2 ≤ ts.length) (hno : containsSub andSep c = false) :
    FilterWhereForTable c t ts =
      (if containsSub (t ++ ['.']) (goTrimSpace c) then
        goReplaceAll (goTrimSpace c) (t ++ ['.']) []
      else if ts.any (fun tb => containsSub (tb ++ ['.']) (goTrimSpace c)) then []
      else goTrimSpace c) := by
  rw [fwft_eq_join c t ts hts]
  unfold relevantConditions
  rw [goSplitOn_no_occ c andSep (by decide) hno]
  rw [List.filterMap_cons]
  simp only [classifyCond]
  by_cases h1 : containsSub (t ++ ['.']) (goTrimSpace c) = true
  · simp [h1, goJoin, List.intercalate]
  · rw [Bool.not_eq_true] at h1
    simp only [h1, Bool.false_eq_true, if_false]
    by_cases h2 : (ts.any fun tb => containsSub (tb ++ ['.']) (goTrimSpace c)) = true
    · simp [h2, goJoin, List.intercalate]
    · rw [Bool.not_eq_true] at h2
      simp [h2, goJoin, List.intercalate]

/-- C9: `FilterWhereForTable` classifies a condition as referencing table `T`
whenever the text `T.` occurs anywhere in the condition — also inside a
string literal (second conjunct) or inside a longer identifier such as
`xusers.` (third conjunct) — and removes every occurrence of `<target>.`,
not only a leading prefix (fourth conjunct). -/
theorem C9_textual_containment_classification :
    (∀ (c t : Str) (ts : List Str), 2 ≤ ts.length → containsSub andSep c = false →
      FilterWhereForTable c t ts =
        (if containsSub (t ++ ['.']) (goTrimSpace c) then
          goReplaceAll (goTrimSpace c) (t ++ ['.']) []
        else if ts.any (fun tb => containsSub (tb ++ ['.']) (goTrimSpace c)) then []
        else goTrimSpace c)) ∧
    FilterWhereForTable (toL "name=" ++ [sqC] ++ toL "users.x" ++ [sqC])
        (toL "users") [toL "users", toL "posts"]
      = toL "name=" ++ [sqC] ++ toL "x" ++ [sqC] ∧
    FilterWhereForTable (toL "xusers.y=1") (toL "users") [toL "users", toL "posts"]
      = toL "xy=1" ∧
    FilterWhereForTable (toL "users.a=users.b") (toL "users") [toL "users", toL "posts"]
      = toL "a=b" :=
  ⟨fun c t ts hts hno => fwft_single_condition c t ts hts hno,
    by decide, by decide, by decide⟩

/-- C9 witness: the universally quantified conjunct applied at a concrete
condition whose target reference sits inside a string literal. -/
theorem C9_textual_containment_classification_witness :
    2 ≤ [toL "users", toL "posts"].length ∧
    containsSub andSep (toL "note=" ++ [sqC] ++ toL "users.k" ++ [sqC]) = false ∧
    FilterWhereForTable (toL "note=" ++ [sqC] ++ toL "users.k" ++ [sqC])
        (toL "users") [toL "users", toL "posts"]
      = (if containsSub (toL "users" ++ ['.'])
            (goTrimSpace (toL "note=" ++ [sqC] ++ toL "users.k" ++ [sqC])) then
          goReplaceAll (goTrimSpace (toL "note=" ++ [sqC] ++ toL "users.k" ++ [sqC]))
            (toL "users" ++ ['.']) []
        else if [toL "users", toL "posts"].any
            (fun tb => containsSub (tb ++ ['.'])
              (goTrimSpace (toL "note=" ++ [sqC] ++ toL "users.k" ++ [sqC]))) then []
        else goTrimSpace (toL "note=" ++ [sqC] ++ toL "users.k" ++ [sqC])) :=
  ⟨by decide, by decide,
    C9_textual_containment_classification.1
      (toL "note=" ++ [sqC] ++ toL "users.k" ++ [sqC])
      (toL "users") [toL "users", toL "posts"] (by decide) (by decide)⟩

/-- C2 counterexample: the claimed guarantee fails on the code. First: for a
single-table statement the filter is returned unchanged, so the per-table
filter for `users` on the repository's own test filter `users.id=1` (from
`UPDATE users u SET u.name=... WHERE u.id=1`) starts with `users.`. Second:
even with two tables, left-to-right removal of `t.` from the condition
`tt..a` leaves `t.a`, so the first output condition starts with `t.`. -/
theorem C2_counterexample :
    (FilterWhereForTable (toL "users.id=1") (toL "users") [toL "users"]
        = toL "users.id=1" ∧
      (toL "users.").isPrefixOf
        (FilterWhereForTable (toL "users.id=1") (toL "users") [toL "users"]) = true) ∧
    (FilterWhereForTable (toL "tt..a and c=1") (toL "t") [toL "t", toL "u"]
        = toL "t.a and c=1" ∧
      goSplitOn (FilterWhereForTable (toL "tt..a and c=1") (toL "t") [toL "t", toL "u"])
          andSep = [toL "t.a", toL "c=1"] ∧
      (toL "t.").isPrefixOf (toL "t.a") = true) := by
  exact ⟨⟨by decide, by decide⟩, by decide, by decide, by decide⟩

/-- C2 (amended): for statements with more than one table, provided the
target table name contains no `.` and every split condition of the filter
contains at most one `.` after trimming, no retained condition of
`FilterWhereForTable` contains `T.` at all (in particular never as a
condition prefix), and the output is exactly the join of those conditions. -/
theorem C2_no_target_prefix_amended (w t : Str) (ts : List Str)
    (hts : 2 ≤ ts.length) (hdot : '.' ∉ t)
    (hone : ∀ c ∈ goSplitOn w andSep, List.count '.' (goTrimSpace c) ≤ 1) :
    FilterWhereForTable w t ts = goJoin andSep (relevantConditions w t ts) ∧
      ∀ r ∈ relevantConditions w t ts, containsSub (t ++ ['.']) r = false := by
  refine ⟨fwft_eq_join w t ts hts, ?_⟩
  intro r hr
  unfold relevantConditions at hr
  obtain ⟨c, hc, hclass⟩ := List.mem_filterMap.mp hr
  have hcount := hone c hc
  simp only [classifyCond] at hclass
  by_cases h1 : containsSub (t ++ ['.']) (goTrimSpace c) = true
  · rw [if_pos h1] at hclass
    have hrval : r = goReplaceAll (goTrimSpace c) (t ++ ['.']) [] :=
      (Option.some_inj.mp hclass).symm
    have hpne : t ++ ['.'] ≠ [] := append_singleton_ne_nil t '.'
    have hcp : List.count '.' (t ++ ['.']) = 1 := by
      rw [List.count_append]
      rw [List.count_eq_zero_of_not_mem hdot]
      decide
    have hdropc : List.count '.'
        (replaceAllFuel (t ++ ['.']) [] (goTrimSpace c).length (goTrimSpace c))
          + List.count '.' (t ++ ['.']) ≤ List.count '.' (goTrimSpace c) :=
      replaceAllFuel_count_drop (t ++ ['.']) '.' hpne (goTrimSpace c).length
        (goTrimSpace c) (Nat.le_refl _) h1
    have hzero : List.count '.' r = 0 := by
      rw [hrval]
      unfold goReplaceAll
      rw [if_neg hpne]
      omega
    have hnodotr : '.' ∉ r := List.count_eq_zero.mp hzero
    rw [Bool.eq_false_iff]
    intro habs
    exact hnodotr (containsSub_mem (t ++ ['.']) '.' (by simp) r habs)
  · rw [Bool.not_eq_true] at h1
    rw [if_neg (by simp [h1])] at hclass
    by_cases h2 : (ts.any fun tbl => containsSub (tbl ++ ['.']) (goTrimSpace c)) = true
    · rw [if_pos h2] at hclass
      cases hclass
    · rw [if_neg h2] at hclass
      have hrval : r = goTrimSpace c := (Option.some_inj.mp hclass).symm
      rw [hrval]
      exact h1

/-- C2 amended witness: the amended theorem at the Employees/Departments
filter of the repository's own README example. -/
theorem C2_no_target_prefix_amended_witness :
    2 ≤ [toL "Employees", toL "Departments"].length ∧
    ('.' ∉ toL "Employees") ∧
    (∀ c ∈ goSplitOn (toL "Departments.n=x and Employees.y=5") andSep,
      List.count '.' (goTrimSpace c) ≤ 1) ∧
    (FilterWhereForTable (toL "Departments.n=x and Employees.y=5")
        (toL "Employees") [toL "Employees", toL "Departments"]
      = goJoin andSep (relevantConditions (toL "Departments.n=x and Employees.y=5")
          (toL "Employees") [toL "Employees", toL "Departments"]) ∧
      ∀ r ∈ relevantConditions (toL "Departments.n=x and Employees.y=5")
          (toL "Employees") [toL "Employees", toL "Departments"],
        containsSub (toL "Employees" ++ ['.']) r = false) :=
  ⟨by decide, by decide, by decide,
    C2_no_target_prefix_amended (toL "Departments.n=x and Employees.y=5")
      (toL "Employees") [toL "Employees", toL "Departments"]
      (by decide) (by decide) (by decide)⟩

/-- Helper: the join-tree walk touches only `TableNames` and `AliasMap`. -/
theorem extractTableNames_pres (n : RSNode) : ∀ v : ColX,
    (extractTableNames v n).Action = v.Action ∧
    (extractTableNames v n).WhereFilter = v.WhereFilter ∧
    (extractTableNames v n).PrimaryTable = v.PrimaryTable ∧
    (extractTableNames v n).ColNames = v.ColNames := by
  induction n with
  | srcTable name aliasN =>
    intro v
    by_cases h1 : aliasN = [] <;> by_cases h2 : name = [] <;>
      simp [extractTableNames, h1, h2] <;> split <;> simp
  | srcOther => intro v; simp [extractTableNames]
  | join l r ihl ihr =>
    intro v
    simp only [extractTableNames]
    exact ⟨((ihr _).1).trans (ihl v).1,
      ((ihr _).2.1).trans (ihl v).2.1,
      ((ihr _).2.2.1).trans (ihl v).2.2.1,
      ((ihr _).2.2.2).trans (ihl v).2.2.2⟩

/-- Helper: the join-tree walk keeps `TableNames` duplicate-free — a leaf is
appended only after the explicit membership check, so a table name that
reappears (under any alias) is not re-added. -/
theorem extractTableNames_nodup (n : RSNode) : ∀ v : ColX,
    v.TableNames.Nodup → (extractTableNames v n).TableNames.Nodup := by
  induction n with
  | srcTable name aliasN =>
    intro v hv
    have key : ∀ w : ColX, w.TableNames = v.TableNames →
        (if name = [] then w
          else if w.TableNames.contains name then w
          else {w with TableNames := w.TableNames ++ [name]}).TableNames.Nodup := by
      intro w hw
      by_cases h2 : name = []
      · simpa [h2, hw] using hv
      · by_cases h3 : name ∈ v.TableNames
        · simpa [h2, h3, hw] using hv
        · simp [h2, h3, hw, List.nodup_append, hv]
    simp only [extractTableNames]
    exact key (if aliasN = [] then v
      else {v with AliasMap := aliasMapSet v.AliasMap aliasN name}) (by split <;> rfl)
  | srcOther => intro v hv; simpa [extractTableNames] using hv
  | join l r ihl ihr =>
    intro v hv
    simp only [extractTableNames]
    exact ihr _ (ihl v hv)

/-- Helper: `extractWhereFilter` touches only `WhereFilter` and `ColNames`,
and appends the subtree's columns whatever the serialization outcome. -/
theorem extractWhereFilter_pres (v : ColX) (w : WhereExpr) :
    (extractWhereFilter v w).TableNames = v.TableNames ∧
    (extractWhereFilter v w).Action = v.Action ∧
    (extractWhereFilter v w).PrimaryTable = v.PrimaryTable ∧
    (extractWhereFilter v w).AliasMap = v.AliasMap := by
  cases w with
  | noExpr => simp [extractWhereFilter]
  | expr r cols => cases r <;> simp [extractWhereFilter]

/-- Helper: the DML table phase touches only `TableNames`, `PrimaryTable`
and `AliasMap`. -/
theorem dmlTablePhase_pres (v : ColX) (refs : Option RSNode) :
    (dmlTablePhase v refs).Action = v.Action ∧
    (dmlTablePhase v refs).WhereFilter = v.WhereFilter ∧
    (dmlTablePhase v refs).ColNames = v.ColNames := by
  cases refs with
  | none => simp [dmlTablePhase]
  | some j =>
    simp only [dmlTablePhase]
    have h := extractTableNames_pres j v
    cases hts : (extractTableNames v j).TableNames with
    | nil => exact ⟨h.1, h.2.1, h.2.2.2⟩
    | cons t rest => exact ⟨h.1, h.2.1, h.2.2.2⟩

/-- Helper: the DML table phase keeps `TableNames` duplicate-free. -/
theorem dmlTablePhase_nodup (v : ColX) (refs : Option RSNode)
    (hv : v.TableNames.Nodup) : (dmlTablePhase v refs).TableNames.Nodup := by
  cases refs with
  | none => simpa [dmlTablePhase]
  | some j =>
    simp only [dmlTablePhase]
    have h := extractTableNames_nodup j v hv
    cases hts : (extractTableNames v j).TableNames with
    | nil => exact h
    | cons t rest =>
      simp only []
      rw [hts] at h
      simp [hts] at h
      simp [h]

/-- Helper: visiting a SELECT node sets the action to `SELECT` whatever the
prior state. -/
theorem extractSelectInto_action (v : ColX) (d : SelectData) :
    (extractSelectInto v d).Action = toL "SELECT" := by
  unfold extractSelectInto
  cases hf : d.fromRefs with
  | none =>
    simp only []
    rw [(extractWhereFilter_pres _ d.whereE).2.1]
  | some j =>
    simp only []
    rw [(extractWhereFilter_pres _ d.whereE).2.1,
      (extractTableNames_pres j _).1]

/-- Helper: visiting a SELECT node keeps `TableNames` duplicate-free. -/
theorem extractSelectInto_nodup (v : ColX) (d : SelectData)
    (hv : v.TableNames.Nodup) : (extractSelectInto v d).TableNames.Nodup := by
  unfold extractSelectInto
  cases hf : d.fromRefs with
  | none =>
    simp only []
    rw [(extractWhereFilter_pres _ d.whereE).1]
    exact hv
  | some j =>
    simp only []
    rw [(extractWhereFilter_pres _ d.whereE).1]
    exact extractTableNames_nodup j _ hv

/-- Helper: appending one direct table name to a state with an empty table
list yields a duplicate-free table list. -/
theorem appendDirectTable_nodup_of_nil (v : ColX) (tb : Option Str)
    (hv : v.TableNames = []) : (appendDirectTable v tb).TableNames.Nodup := by
  cases tb with
  | none => simp [appendDirectTable, hv]
  | some n =>
    by_cases hn : n = [] <;> simp [appendDirectTable, hn, hv]

/-- C3 counterexample: the DROP case of `ColX.Enter` appends every listed
table name without a duplicate check, so `DROP TABLE users, users` yields a
tables sequence with a duplicate entry. -/
theorem C3_counterexample :
    (Extract (.dropStmt [some (toL "users"), some (toL "users")])).TableNames
        = [toL "users", toL "users"] ∧
      ¬ (Extract (.dropStmt [some (toL "users"),
          some (toL "users")])).TableNames.Nodup := by
  exact ⟨by decide, by decide⟩

/-- C3 (amended): for every statement other than DROP — in particular for
all statements whose tables are harvested through the join-tree walk, where
a table name that reappears under a different alias is not re-added — the
extracted tables sequence contains no duplicate entries. DROP appends its
listed names verbatim and can duplicate. -/
theorem C3_tables_nodup_amended (s : Stmt) (h : s.isDrop = false) :
    (Extract s).TableNames.Nodup := by
  have hempty : ColX.empty.TableNames = [] := rfl
  cases s with
  | insertStmt refs cols sel =>
    have hphase : (insertTablePhase {ColX.empty with Action := toL "INSERT"}
        refs).TableNames.Nodup := by
      cases refs with
      | none => exact List.nodup_nil
      | some j =>
        exact extractTableNames_nodup j {ColX.empty with Action := toL "INSERT"}
          List.nodup_nil
    cases sel with
    | none => simpa [Extract] using hphase
    | some d =>
      simp only [Extract]
      exact extractSelectInto_nodup _ d (by simpa using hphase)
  | updateStmt refs w cols =>
    simp only [Extract]
    rw [(extractWhereFilter_pres _ w).1]
    exact dmlTablePhase_nodup _ refs List.nodup_nil
  | deleteStmt refs w cols =>
    simp only [Extract]
    rw [(extractWhereFilter_pres _ w).1]
    exact dmlTablePhase_nodup _ refs List.nodup_nil
  | selectStmt d =>
    simp only [Extract]
    exact extractSelectInto_nodup _ d List.nodup_nil
  | alterStmt tb cols =>
    simp only [Extract]
    have := appendDirectTable_nodup_of_nil {ColX.empty with Action := toL "ALTER"} tb rfl
    simpa using this
  | createStmt tb cols =>
    simp only [Extract]
    have := appendDirectTable_nodup_of_nil {ColX.empty with Action := toL "CREATE"} tb rfl
    simpa using this
  | dropStmt tbs => simp [Stmt.isDrop] at h
  | truncateStmt tb =>
    simp only [Extract]
    exact appendDirectTable_nodup_of_nil {ColX.empty with Action := toL "TRUNCATE"} tb rfl

/-- C3 amended witness: the amended theorem at a SELECT whose join tree
names the same table twice under different aliases. -/
theorem C3_tables_nodup_amended_witness :
    (Stmt.selectStmt ⟨some (.join (.srcTable (toL "users") (toL "u"))
        (.srcTable (toL "users") (toL "x"))), .noExpr, []⟩).isDrop = false ∧
      (Extract (.selectStmt ⟨some (.join (.srcTable (toL "users") (toL "u"))
        (.srcTable (toL "users") (toL "x"))), .noExpr, []⟩)).TableNames.Nodup :=
  ⟨by decide,
    C3_tables_nodup_amended (.selectStmt ⟨some (.join (.srcTable (toL "users") (toL "u"))
      (.srcTable (toL "users") (toL "x"))), .noExpr, []⟩) (by decide)⟩

/-- Helper: a failed serialization leaves `WhereFilter` untouched. -/
theorem extractWhereFilter_none_wf (v : ColX) (wcols : List Str) :
    (extractWhereFilter v (.expr none wcols)).WhereFilter = v.WhereFilter := by
  simp [extractWhereFilter]

/-- Helper: apart from `WhereFilter`, the result of `extractWhereFilter`
does not depend on the serialization outcome. -/
theorem extractWhereFilter_sameFacts (v : ColX) (wcols : List Str) (r : Option Str) :
    sameFactsExceptWhere (extractWhereFilter v (.expr none wcols))
      (extractWhereFilter v (.expr r wcols)) := by
  cases r <;> simp [extractWhereFilter, sameFactsExceptWhere]

/-- Helper: appending the same statement columns preserves field agreement. -/
theorem sameFacts_appendCols (a b : ColX) (cols : List Str)
    (h : sameFactsExceptWhere a b) :
    sameFactsExceptWhere {a with ColNames := a.ColNames ++ cols}
      {b with ColNames := b.ColNames ++ cols} := by
  obtain ⟨h1, h2, h3, h4, h5⟩ := h
  exact ⟨by simp [h1], h2, h3, h4, h5⟩

/-- C7: when the WHERE subtree fails to serialize (the external Restore
returns an error, modelled by `restored = none`), `WhereFilter` stays empty,
no error is raised (`Extract` is total and produces a result), and every
other field equals what extraction produces for any serialization outcome
`r` — for UPDATE, DELETE and SELECT statements alike. -/
theorem C7_restore_failure_degrades_silently (refs : Option RSNode)
    (fr : Option RSNode) (wcols cols : List Str) (r : Option Str) :
    ((Extract (.deleteStmt refs (.expr none wcols) cols)).WhereFilter = [] ∧
      sameFactsExceptWhere (Extract (.deleteStmt refs (.expr none wcols) cols))
        (Extract (.deleteStmt refs (.expr r wcols) cols))) ∧
    ((Extract (.updateStmt refs (.expr none wcols) cols)).WhereFilter = [] ∧
      sameFactsExceptWhere (Extract (.updateStmt refs (.expr none wcols) cols))
        (Extract (.updateStmt refs (.expr r wcols) cols))) ∧
    ((Extract (.selectStmt ⟨fr, .expr none wcols, cols⟩)).WhereFilter = [] ∧
      sameFactsExceptWhere (Extract (.selectStmt ⟨fr, .expr none wcols, cols⟩))
        (Extract (.selectStmt ⟨fr, .expr r wcols, cols⟩))) := by
  refine ⟨⟨?_, ?_⟩, ⟨?_, ?_⟩, ⟨?_, ?_⟩⟩
  · exact (extractWhereFilter_none_wf
        (dmlTablePhase {ColX.empty with Action := toL "DELETE"} refs) wcols).trans
      (dmlTablePhase_pres {ColX.empty with Action := toL "DELETE"} refs).2.1
  · exact sameFacts_appendCols _ _ cols
      (extractWhereFilter_sameFacts
        (dmlTablePhase {ColX.empty with Action := toL "DELETE"} refs) wcols r)
  · exact (extractWhereFilter_none_wf
        (dmlTablePhase {ColX.empty with Action := toL "UPDATE"} refs) wcols).trans
      (dmlTablePhase_pres {ColX.empty with Action := toL "UPDATE"} refs).2.1
  · exact sameFacts_appendCols _ _ cols
      (extractWhereFilter_sameFacts
        (dmlTablePhase {ColX.empty with Action := toL "UPDATE"} refs) wcols r)
  · have hwf2 : (match fr with
        | some j => extractTableNames {ColX.empty with Action := toL "SELECT"} j
        | none => {ColX.empty with Action := toL "SELECT"}).WhereFilter = [] := by
      cases fr with
      | none => rfl
      | some j => exact (extractTableNames_pres j _).2.1
    exact (extractWhereFilter_none_wf _ wcols).trans hwf2
  · exact sameFacts_appendCols _ _ cols (extractWhereFilter_sameFacts _ wcols r)

/-- C10: an `INSERT ... SELECT` statement reports action `SELECT`, not
`INSERT` — `Enter` never skips children, so the nested SELECT node is
visited after the INSERT node and overwrites the action, while contributing
its FROM tables and WHERE filter to the same result (concrete conjunct:
`INSERT INTO logs SELECT ... FROM users WHERE id=1` yields action `SELECT`,
tables `[logs, users]` and filter `id=1`). -/
theorem C10_insert_select_overwrites_action :
    (∀ (refs : Option RSNode) (cols : List Str) (sd : SelectData),
      (Extract (.insertStmt refs cols (some sd))).Action = toL "SELECT") ∧
    toL "SELECT" ≠ toL "INSERT" ∧
    Extract (.insertStmt (some (.join (.srcTable (toL "logs") []) .srcOther)) []
        (some ⟨some (.join (.srcTable (toL "users") []) .srcOther),
          .expr (some (toL "id=1")) [toL "id"], []⟩))
      = ⟨[toL "id"], [toL "logs", toL "users"], [], toL "SELECT", toL "id=1", []⟩ := by
  refine ⟨?_, by decide, by decide⟩
  intro refs cols sd
  exact extractSelectInto_action _ sd

example :
    dumpStmtLines [toL "users"] (toL "SELECT") (toL "id=42") []
        (connOptsOf [] (toL "db.example.local") (toL "root") []) (toL "database_name")
      = [toL "mysqldump -h db.example.local -u root --where=\"id=42\" database_name users"] := by
  decide

example :
    dumpStmtLines [toL "users", toL "posts"] (toL "SELECT") (toL "users.active=1")
        [] [] (toL "database_name")
      = [toL "mysqldump --where=\"active=1\" database_name users",
          toL "mysqldump database_name posts"] := by
  decide

example :
    dumpStmtLines [] (toL "SELECT") [] [] [] (toL "database_name")
      = [toL "# No tables found in SQL statement"] := by decide

/-- Helper: a pattern is a prefix of itself followed by anything. -/
theorem isPrefixOf_append_self (p x : Str) : p.isPrefixOf (p ++ x) = true := by
  induction p with
  | nil => cases x <;> rfl
  | cons c l ih => simp [List.isPrefixOf, ih]

/-- Helper: a line starting with `#` is not an export directive. -/
theorem isExportLine_hash (l : Str) : isExportLine ('#' :: l) = false := by
  show (toL "mysqldump").isPrefixOf ('#' :: l) = false
  rw [show toL "mysqldump" = 'm' :: toL "ysqldump" from rfl]
  simp [List.isPrefixOf]

/-- Helper: every export directive is recognised as one. -/
theorem isExportLine_exportLine (connOpts filter db t : Str) :
    isExportLine (exportLine connOpts filter db t) = true :=
  isPrefixOf_append_self (toL "mysqldump") _

/-- Helper: no line of the helper block is an export directive. -/
theorem helperBlock_no_export (connOpts db w t : Str) (ts : List Str) :
    (helperBlock connOpts db w t ts).filter isExportLine = [] := by
  have h1 : isExportLine (toL "# To get exact rows matching all JOIN conditions:")
      = false := by decide
  have h2 : isExportLine (toL "# Step 1: Get matching IDs") = false := by decide
  have h3 : isExportLine (toL "# mysql -N -e \"SELECT e.id FROM " ++ t ++ toL " e "
      ++ helperJoinChunks t ts ++ toL "WHERE " ++ w ++ toL "\" " ++ db
      ++ toL " > /tmp/" ++ t ++ toL "_ids.txt") = false := isExportLine_hash _
  have h4 : isExportLine (toL "# Step 2: Dump exact rows") = false := by decide
  have h5 : isExportLine (toL "# mysqldump" ++ connOpts
      ++ toL " --where=\"id IN ($(cat /tmp/" ++ t ++ toL "_ids.txt | tr "
      ++ [sqC, '\\', 'n', sqC] ++ [' '] ++ [sqC, ',', sqC] ++ toL " | sed "
      ++ [sqC] ++ toL "s/,$//" ++ [sqC] ++ toL " ))\" " ++ db ++ ' ' :: t)
      = false := isExportLine_hash _
  have h6 : isExportLine (toL "#") = false := by decide
  have h7 : isExportLine (toL "# Or use partial filter (may include extra rows):")
      = false := by decide
  simp only [helperBlock, List.filter]
  rw [h1, h2, h3, h4, h5, h6, h7]

/-- C8: for a statement with a non-empty tables list, `runDump` (embedded by
`dumpStmtLines`) emits exactly one export directive per table-to-dump, in
order — the export directives of the output are precisely the mapped
`exportLine`s, the tables-to-dump are `[primaryTable]` for UPDATE/DELETE
with a set primary table and the full list otherwise, and a directive
carries the `--where` clause exactly when that table's per-table filter is
non-empty. -/
theorem C8_one_export_directive_per_table (tables : List Str)
    (action w primary connOpts db : Str) (h : tables ≠ []) :
    (dumpStmtLines tables action w primary connOpts db).filter isExportLine
      = (tablesToDump action primary tables).map
          (fun t => exportLine connOpts (FilterWhereForTable w t tables) db t) ∧
    tablesToDump action primary tables
      = (if (action = toL "UPDATE" ∨ action = toL "DELETE") ∧ primary ≠ []
          then [primary] else tables) ∧
    (∀ t f : Str, f ≠ [] → exportLine connOpts f db t
      = toL "mysqldump" ++ (connOpts ++ (toL " --where=\"" ++ (f ++ toL "\"")
          ++ (' ' :: (db ++ ' ' :: t))))) ∧
    (∀ t f : Str, f = [] → exportLine connOpts f db t
      = toL "mysqldump" ++ (connOpts ++ (' ' :: (db ++ ' ' :: t)))) := by
  refine ⟨?_, rfl, ?_, ?_⟩
  · unfold dumpStmtLines
    rw [if_neg h]
    generalize tablesToDump action primary tables = td
    induction td with
    | nil => simp
    | cons t rest ih =>
      simp only [List.map_cons, List.flatten_cons, List.filter_append]
      rw [ih]
      have hif : (if (action = toL "UPDATE" ∨ action = toL "DELETE")
          ∧ t = primary ∧ 1 < tables.length
          ∧ naiveFilter w tables ≠ FilterWhereForTable w t tables
          ∧ FilterWhereForTable w t tables ≠ [] then
            helperBlock connOpts db w t tables
          else []).filter isExportLine = [] := by
        split
        · exact helperBlock_no_export connOpts db w t tables
        · rfl
      rw [hif]
      simp [List.filter, isExportLine_exportLine]
  · intro t f hf
    simp [exportLine, hf]
  · intro t f hf
    simp [exportLine, hf]

/-- C8 witness: the theorem at the repository's own integration-test
configuration (`SELECT * FROM users WHERE id = 42` with user and host). -/
theorem C8_one_export_directive_per_table_witness :
    ([toL "users"] : List Str) ≠ [] ∧
      (dumpStmtLines [toL "users"] (toL "SELECT") (toL "id=42") []
          (toL " -h db.example.local -u root") (toL "database_name")).filter isExportLine
        = (tablesToDump (toL "SELECT") [] [toL "users"]).map
            (fun t => exportLine (toL " -h db.example.local -u root")
              (FilterWhereForTable (toL "id=42") t [toL "users"])
              (toL "database_name") t) :=
  ⟨by decide,
    (C8_one_export_directive_per_table [toL "users"] (toL "SELECT") (toL "id=42") []
      (toL " -h db.example.local -u root") (toL "database_name") (by decide)).1⟩

/-- Helper: the charset scan does nothing on the empty string. -/
theorem stripCharsetFuel_nil (n : Nat) : stripCharsetFuel n [] = [] := by
  cases n <;> rfl

/-- Helper: a quoted-literal scan over quote-free, newline-free text finds
the closing quote. -/
theorem takeUntilQuote_clean (inner : Str)
    (hclean : inner.all (fun c => !(c == sqC || c == '\n')) = true) :
    ∀ rest2 : Str, takeUntilQuote (inner ++ sqC :: rest2) = some (inner, rest2) := by
  induction inner with
  | nil =>
    intro rest2
    simp [takeUntilQuote]
  | cons c l ih =>
    intro rest2
    rw [List.all_cons, Bool.and_eq_true] at hclean
    have hc1 : ¬ c = sqC := by
      intro hcc
      subst hcc
      simp at hclean
    have hc2 : ¬ c = '\n' := by
      intro hcc
      subst hcc
      simp at hclean
    simp [takeUntilQuote, hc1, hc2, ih hclean.2 rest2]

/-- Helper: one step of the `_UTF8MB4` scan at a leading occurrence. -/
theorem stripCharsetFuel_step (n : Nat) (inner rest2 : Str)
    (hclean : inner.all (fun c => !(c == sqC || c == '\n')) = true) :
    stripCharsetFuel (n + 1) ('_' :: (toL "UTF8MB4" ++ (sqC :: (inner ++ sqC :: rest2))))
      = sqC :: (inner ++ sqC :: stripCharsetFuel n rest2) := by
  simp only [stripCharsetFuel]
  have hpre : (utf8mb4Tok ++ [sqC]).isPrefixOf
      ('_' :: (toL "UTF8MB4" ++ (sqC :: (inner ++ sqC :: rest2)))) = true := by
    show (utf8mb4Tok ++ [sqC]).isPrefixOf
      ((utf8mb4Tok ++ [sqC]) ++ (inner ++ sqC :: rest2)) = true
    exact isPrefixOf_append_self _ _
  rw [hpre]
  have hdrop : ('_' :: (toL "UTF8MB4" ++ (sqC :: (inner ++ sqC :: rest2)))).drop
      (utf8mb4Tok ++ [sqC]).length = inner ++ sqC :: rest2 := by
    show ((utf8mb4Tok ++ [sqC]) ++ (inner ++ sqC :: rest2)).drop
      (utf8mb4Tok ++ [sqC]).length = inner ++ sqC :: rest2
    exact List.drop_left _ _
  rw [hdrop, takeUntilQuote_clean inner hclean rest2]
  simp

/-- Helper: a successful quoted-literal scan accounts for the whole input:
literal content plus the closing quote plus the remainder. -/
theorem takeUntilQuote_len : ∀ (s inner r : Str),
    takeUntilQuote s = some (inner, r) → inner.length + 1 + r.length = s.length := by
  intro s
  induction s with
  | nil =>
    intro inner r h
    simp [takeUntilQuote] at h
  | cons c cs ih =>
    intro inner r h
    simp only [takeUntilQuote] at h
    by_cases hc : c = sqC
    · rw [if_pos hc] at h
      have ha : ([] : Str) = inner := congrArg Prod.fst (Option.some.inj h)
      have hb : cs = r := congrArg Prod.snd (Option.some.inj h)
      subst ha
      subst hb
      simp [Nat.add_comm]
    · rw [if_neg hc] at h
      by_cases hn : c = '\n'
      · rw [if_pos hn] at h
        exact absurd h (by simp)
      · rw [if_neg hn] at h
        cases hrec : takeUntilQuote cs with
        | none =>
          rw [hrec] at h
          exact absurd h (by simp)
        | some p =>
          cases p with
          | mk i2 r2 =>
            rw [hrec] at h
            have ha : c :: i2 = inner := congrArg Prod.fst (Option.some.inj h)
            have hb : r2 = r := congrArg Prod.snd (Option.some.inj h)
            subst ha
            subst hb
            have := ih i2 r2 hrec
            simp only [List.length_cons]
            omega

/-- Helper: the charset scan does not depend on the fuel, as long as the
fuel covers the input length. -/
theorem stripCharsetFuel_irrel : ∀ (n m : Nat) (s : Str),
    s.length ≤ n → s.length ≤ m → stripCharsetFuel n s = stripCharsetFuel m s := by
  intro n
  induction n with
  | zero =>
    intro m s hn _
    have hs : s = [] := List.eq_nil_of_length_eq_zero (Nat.le_zero.mp hn)
    subst hs
    rw [stripCharsetFuel_nil, stripCharsetFuel_nil]
  | succ n ih =>
    intro m s hn hm
    cases s with
    | nil => rw [stripCharsetFuel_nil, stripCharsetFuel_nil]
    | cons c cs =>
      cases m with
      | zero => simp at hm
      | succ m =>
        simp only [stripCharsetFuel]
        by_cases hp : (utf8mb4Tok ++ [sqC]).isPrefixOf (c :: cs) = true
        · rw [hp]
          rw [if_pos rfl, if_pos rfl]
          cases hq : takeUntilQuote ((c :: cs).drop (utf8mb4Tok ++ [sqC]).length) with
          | none =>
            show c :: stripCharsetFuel n cs = c :: stripCharsetFuel m cs
            exact congrArg (c :: .) (ih m cs (by simp at hn; omega) (by simp at hm; omega))
          | some p =>
            cases p with
            | mk inner r =>
              show sqC :: (inner ++ sqC :: stripCharsetFuel n r)
                = sqC :: (inner ++ sqC :: stripCharsetFuel m r)
              have hlen9 : (utf8mb4Tok ++ [sqC]).length = 9 := by decide
              have hq2 := takeUntilQuote_len _ _ _ hq
              rw [List.length_drop, hlen9] at hq2
              have hr_n : r.length ≤ n := by simp at hn hq2 ⊢; omega
              have hr_m : r.length ≤ m := by simp at hm hq2 ⊢; omega
              rw [ih m r hr_n hr_m]
        · have hp2 : (utf8mb4Tok ++ [sqC]).isPrefixOf (c :: cs) = false :=
            Bool.eq_false_iff.mpr hp
          rw [hp2]
          rw [if_neg (by simp), if_neg (by simp)]
          exact congrArg (c :: .) (ih m cs (by simp at hn; omega) (by simp at hm; omega))

/-- Helper: on a string with no occurrence of `_UTF8MB4'`, the charset scan
copies every character unchanged. -/
theorem stripCharsetFuel_no_occ : ∀ (n : Nat) (s : Str), s.length ≤ n →
    containsSub (utf8mb4Tok ++ [sqC]) s = false → stripCharsetFuel n s = s := by
  intro n
  induction n with
  | zero =>
    intro s hn _
    have hs : s = [] := List.eq_nil_of_length_eq_zero (Nat.le_zero.mp hn)
    subst hs
    exact stripCharsetFuel_nil 0
  | succ n ih =>
    intro s hn h
    cases s with
    | nil => exact stripCharsetFuel_nil _
    | cons c cs =>
      simp only [containsSub, Bool.or_eq_false_iff] at h
      simp only [stripCharsetFuel]
      rw [h.1]
      rw [if_neg (by simp)]
      exact congrArg (c :: .) (ih cs (by simp at hn; omega) h.2)

/-- The charset-stripping step is the identity on every string that does not
contain the substring `_UTF8MB4'`. -/
theorem stripCharset_no_occ (s : Str)
    (h : containsSub (utf8mb4Tok ++ [sqC]) s = false) : stripCharset s = s :=
  stripCharsetFuel_no_occ s.length s (Nat.le_refl _) h

/-- Helper: the pattern `_UTF8MB4'` written with its head exposed. -/
theorem utf8mb4_pat_cons : utf8mb4Tok ++ [sqC] = '_' :: (toL "UTF8MB4" ++ [sqC]) := by
  decide

/-- Helper: past its first character, the pattern `_UTF8MB4'` contains no
underscore. -/
theorem utf8mb4_pat_tail_no_underscore :
    (toL "UTF8MB4" ++ [sqC]).all (fun c => !(c == '_')) = true := by decide

/-- Helper: if the pattern `_UTF8MB4'` is not a prefix of a non-empty
context, it is also not a prefix of the context extended by text starting
with an underscore: the pattern has no interior underscore, so no match can
straddle the boundary. -/
theorem pat_not_prefix_extend (c : Char) (pre2 blockTail : Str)
    (h1 : (utf8mb4Tok ++ [sqC]).isPrefixOf (c :: pre2) = false) :
    (utf8mb4Tok ++ [sqC]).isPrefixOf ((c :: pre2) ++ '_' :: blockTail) = false := by
  cases hb : (utf8mb4Tok ++ [sqC]).isPrefixOf ((c :: pre2) ++ '_' :: blockTail) with
  | false => rfl
  | true =>
    exfalso
    have hpre : (utf8mb4Tok ++ [sqC]) <+: ((c :: pre2) ++ '_' :: blockTail) :=
      List.isPrefixOf_iff_prefix.mp hb
    have hx : (c :: pre2) <+: ((c :: pre2) ++ '_' :: blockTail) :=
      ⟨'_' :: blockTail, rfl⟩
    cases List.prefix_or_prefix_of_prefix hpre hx with
    | inl hle =>
      have hc : (utf8mb4Tok ++ [sqC]).isPrefixOf (c :: pre2) = true :=
        List.isPrefixOf_iff_prefix.mpr hle
      rw [h1] at hc
      exact Bool.false_ne_true hc
    | inr hge =>
      obtain ⟨z, hz⟩ := hge
      have hz2 : z <+: '_' :: blockTail := by
        have hcan : (c :: pre2) ++ z <+: (c :: pre2) ++ '_' :: blockTail := by
          rw [hz]
          exact hpre
        exact (List.prefix_append_right_inj (c :: pre2)).mp hcan
      cases z with
      | nil =>
        rw [List.append_nil] at hz
        have hc : (utf8mb4Tok ++ [sqC]).isPrefixOf (c :: pre2) = true := by
          rw [← hz]
          exact List.isPrefixOf_iff_prefix.mpr (List.prefix_refl _)
        rw [h1] at hc
        exact Bool.false_ne_true hc
      | cons zh ztl =>
        obtain ⟨w, hw⟩ := hz2
        rw [List.cons_append] at hw
        have hzh : zh = '_' := (List.cons.inj hw).1
        rw [List.cons_append, utf8mb4_pat_cons] at hz
        have htl : pre2 ++ zh :: ztl = toL "UTF8MB4" ++ [sqC] := (List.cons.inj hz).2
        have hmem : zh ∈ toL "UTF8MB4" ++ [sqC] := by
          rw [← htl]
          exact List.mem_append_right _ (List.mem_cons_self _ _)
        have hall := utf8mb4_pat_tail_no_underscore
        rw [List.all_eq_true] at hall
        have h2 := hall zh hmem
        rw [hzh] at h2
        simp at h2

/-- Helper: scanning an occurrence-free context followed by a `_UTF8MB4`
token and a quoted literal copies the context verbatim, keeps the literal
alone, and continues the scan after the literal. -/
theorem stripCharsetFuel_ctx : ∀ (pre : Str) (n : Nat) (inner rest : Str),
    (pre ++ '_' :: (toL "UTF8MB4" ++ (sqC :: (inner ++ sqC :: rest)))).length ≤ n →
    containsSub (utf8mb4Tok ++ [sqC]) pre = false →
    inner.all (fun c => !(c == sqC || c == '\n')) = true →
    stripCharsetFuel n (pre ++ '_' :: (toL "UTF8MB4" ++ (sqC :: (inner ++ sqC :: rest))))
      = pre ++ sqC :: (inner ++ sqC :: stripCharset rest) := by
  intro pre
  induction pre with
  | nil =>
    intro n inner rest hn _ hclean
    cases n with
    | zero => simp at hn
    | succ n =>
      rw [List.nil_append]
      rw [stripCharsetFuel_step n inner rest hclean]
      rw [List.nil_append]
      have hlen7 : (toL "UTF8MB4").length = 7 := by decide
      have hr : rest.length ≤ n := by
        simp [hlen7] at hn
        omega
      rw [stripCharsetFuel_irrel n rest.length rest hr (Nat.le_refl _)]
      rfl
  | cons c pre2 ih =>
    intro n inner rest hn hocc hclean
    simp only [containsSub, Bool.or_eq_false_iff] at hocc
    cases n with
    | zero => simp at hn
    | succ n =>
      rw [List.cons_append]
      simp only [stripCharsetFuel]
      have hfail := pat_not_prefix_extend c pre2
        (toL "UTF8MB4" ++ (sqC :: (inner ++ sqC :: rest))) hocc.1
      rw [List.cons_append] at hfail
      rw [hfail]
      rw [if_neg (by simp)]
      rw [ih n inner rest (by simp at hn ⊢; omega) hocc.2 hclean]
      rfl

/-- The charset-stripping step on a `_UTF8MB4`-prefixed literal in an
arbitrary occurrence-free context: the context is kept verbatim, the token
is removed, the literal is kept, and the scan continues after it. -/
theorem stripCharset_ctx (pre inner rest : Str)
    (hocc : containsSub (utf8mb4Tok ++ [sqC]) pre = false)
    (hclean : inner.all (fun c => !(c == sqC || c == '\n')) = true) :
    stripCharset (pre ++ '_' :: (toL "UTF8MB4" ++ (sqC :: (inner ++ sqC :: rest))))
      = pre ++ sqC :: (inner ++ sqC :: stripCharset rest) :=
  stripCharsetFuel_ctx pre _ inner rest (Nat.le_refl _) hocc hclean

/-- Helper: a string without underscores contains no occurrence of the
pattern `_UTF8MB4'`. -/
theorem noOcc_of_no_underscore : ∀ (s : Str),
    s.all (fun c => !(c == '_')) = true →
    containsSub (utf8mb4Tok ++ [sqC]) s = false := by
  intro s
  induction s with
  | nil =>
    intro _
    exact containsSub_nil_false _ (by decide)
  | cons c cs ih =>
    intro h
    rw [List.all_cons, Bool.and_eq_true] at h
    have hcne : ('_' : Char) ≠ c := by
      intro he
      rw [← he] at h
      simp at h
    simp only [containsSub, Bool.or_eq_false_iff]
    constructor
    · rw [utf8mb4_pat_cons]
      simp only [List.isPrefixOf]
      rw [beq_eq_false_iff_ne.mpr hcne]
      rfl
    · exact ih h.2

/-- Helper: the quote character is not a charset-token character. -/
theorem quote_not_charset_char : isCharsetTokChar sqC = false := by decide

/-- Helper: a charset-token character never equals the quote. -/
theorem charset_beq_quote_false (c : Char) (h : isCharsetTokChar c = true) :
    (c == sqC) = false := by
  cases hb : (c == sqC) with
  | false => rfl
  | true =>
    have hc : c = sqC := by simpa using hb
    rw [hc, quote_not_charset_char] at h
    cases h

/-- Helper: a charset token followed by a quote is a prefix of another
charset token followed by a quote only when the tokens are equal. -/
theorem tokQuotePre : ∀ (t a R : Str), a.all isCharsetTokChar = true →
    t.all isCharsetTokChar = true →
    (a ++ [sqC]).isPrefixOf (t ++ sqC :: R) = true → a = t := by
  intro t
  induction t with
  | nil =>
    intro a R ha _ hpre
    cases a with
    | nil => rfl
    | cons c a2 =>
      rw [List.all_cons, Bool.and_eq_true] at ha
      simp only [List.cons_append, List.nil_append, List.isPrefixOf,
        Bool.and_eq_true] at hpre
      rw [charset_beq_quote_false c ha.1] at hpre
      cases hpre.1
  | cons d t2 ih =>
    intro a R ha ht hpre
    rw [List.all_cons, Bool.and_eq_true] at ht
    cases a with
    | nil =>
      simp only [List.nil_append, List.cons_append, List.isPrefixOf,
        Bool.and_eq_true] at hpre
      have hd : sqC = d := by simpa using hpre.1
      rw [← hd] at ht
      cases ht.1
    | cons c a2 =>
      rw [List.all_cons, Bool.and_eq_true] at ha
      simp only [List.cons_append, List.isPrefixOf, Bool.and_eq_true] at hpre
      have hcd : c = d := by simpa using hpre.1
      rw [hcd]
      have h2 : a2 = t2 := ih a2 R ha.2 ht.2 (by simpa using hpre.2)
      rw [h2]

/-- Helper: a charset-token character is never the underscore. -/
theorem charset_not_underscore (c : Char) (h : isCharsetTokChar c = true) :
    (!(c == '_')) = true := by
  cases hb : (c == '_') with
  | false => rfl
  | true =>
    have hc : c = '_' := by simpa using hb
    rw [hc] at h
    cases h

/-- Any charset token other than `_UTF8MB4` followed by a quoted literal
(whose content avoids quotes, newlines and underscores) is left unchanged
by the charset-stripping step. -/
theorem stripCharset_other_token (run inner : Str)
    (hrun : run.all isCharsetTokChar = true) (hneq : run ≠ toL "UTF8MB4")
    (hclean : inner.all (fun c => !(c == sqC || c == '\n' || c == '_')) = true) :
    stripCharset (('_' :: run) ++ sqC :: (inner ++ [sqC]))
      = ('_' :: run) ++ sqC :: (inner ++ [sqC]) := by
  apply stripCharset_no_occ
  rw [List.cons_append]
  simp only [containsSub, Bool.or_eq_false_iff]
  constructor
  · cases hb : (utf8mb4Tok ++ [sqC]).isPrefixOf
        ('_' :: (run ++ sqC :: (inner ++ [sqC]))) with
    | false => rfl
    | true =>
      exfalso
      rw [utf8mb4_pat_cons] at hb
      simp only [List.isPrefixOf, Bool.and_eq_true] at hb
      have hrt := tokQuotePre run (toL "UTF8MB4") (inner ++ [sqC])
        (by decide) hrun hb.2
      exact hneq hrt.symm
  · apply noOcc_of_no_underscore
    rw [List.all_append, Bool.and_eq_true]
    constructor
    · rw [List.all_eq_true] at hrun ⊢
      intro c hc
      exact charset_not_underscore c (hrun c hc)
    · rw [List.all_cons, Bool.and_eq_true]
      refine ⟨by decide, ?_⟩
      rw [List.all_append, Bool.and_eq_true]
      refine ⟨?_, by decide⟩
      rw [List.all_eq_true] at hclean ⊢
      intro c hc
      have h3 := hclean c hc
      simp at h3 ⊢
      exact h3.2

/-- C6 counterexample: the code's renderer removes only the specific token
`_UTF8MB4`, not "any uppercase/letter-only token": on the serialized text
`x=_LATIN1'a'` the code leaves the charset prefix in place while the
claimed cleanup removes it, and the full normalization pipeline therefore
produces a non-empty filter that still contains a charset-prefixed
literal. -/
theorem C6_counterexample :
    stripCharset (toL "x=_LATIN1" ++ [sqC] ++ toL "a" ++ [sqC])
        ≠ specStripAnyCharset (toL "x=_LATIN1" ++ [sqC] ++ toL "a" ++ [sqC]) ∧
      extractWhereFilterText [] (toL "x=_LATIN1" ++ [sqC] ++ toL "a" ++ [sqC])
        = toL "x=_LATIN1" ++ [sqC] ++ toL "a" ++ [sqC] := by
  exact ⟨by decide, by decide⟩

/-- C6 (amended): the renderer removes exactly the charset token `_UTF8MB4`
when it immediately precedes a quoted string literal whose closing quote is
on the same line, keeping only the literal, and this holds in context: the
first conjunct removes the token after an arbitrary occurrence-free prefix
and before an arbitrary remainder, recursing on the remainder, so repeated
application covers every occurrence; the second conjunct shows the step is
the identity on every string with no `_UTF8MB4'` occurrence at all — in
particular nothing else triggers a change; the third conjunct specializes
this: every charset token other than `_UTF8MB4` before a quoted literal is
left unchanged; the last two conjuncts illustrate a two-occurrence filter
and the `_LATIN1` case. -/
theorem C6_utf8mb4_only_amended :
    (∀ pre inner rest : Str,
      containsSub (utf8mb4Tok ++ [sqC]) pre = false →
      inner.all (fun c => !(c == sqC || c == '\n')) = true →
      stripCharset (pre ++ '_' :: (toL "UTF8MB4" ++ (sqC :: (inner ++ sqC :: rest))))
        = pre ++ sqC :: (inner ++ sqC :: stripCharset rest)) ∧
    (∀ s : Str, containsSub (utf8mb4Tok ++ [sqC]) s = false → stripCharset s = s) ∧
    (∀ run inner : Str, run.all isCharsetTokChar = true → run ≠ toL "UTF8MB4" →
      inner.all (fun c => !(c == sqC || c == '\n' || c == '_')) = true →
      stripCharset (('_' :: run) ++ sqC :: (inner ++ [sqC]))
        = ('_' :: run) ++ sqC :: (inner ++ [sqC])) ∧
    stripCharset (toL "a=_UTF8MB4" ++ [sqC] ++ toL "John" ++ [sqC]
        ++ toL " and b=_UTF8MB4" ++ [sqC] ++ toL "x" ++ [sqC])
      = toL "a=" ++ [sqC] ++ toL "John" ++ [sqC] ++ toL " and b="
        ++ [sqC] ++ toL "x" ++ [sqC] ∧
    stripCharset (toL "x=_LATIN1" ++ [sqC] ++ toL "a" ++ [sqC])
      = toL "x=_LATIN1" ++ [sqC] ++ toL "a" ++ [sqC] :=
  ⟨fun pre inner rest hocc hclean => stripCharset_ctx pre inner rest hocc hclean,
   fun s h => stripCharset_no_occ s h,
   fun run inner hrun hneq hclean =>
     stripCharset_other_token run inner hrun hneq hclean,
   by decide, by decide⟩

/-- C6 amended witness: the in-context conjunct applied at the context
`a=`, the literal content `John` and the remainder ` and b=2`, and the
other-token conjunct applied at the token `LATIN1` with literal content
`a`. -/
theorem C6_utf8mb4_only_amended_witness :
    containsSub (utf8mb4Tok ++ [sqC]) (toL "a=") = false ∧
      (toL "John").all (fun c => !(c == sqC || c == '\n')) = true ∧
      stripCharset (toL "a="
          ++ '_' :: (toL "UTF8MB4" ++ (sqC :: (toL "John" ++ sqC :: toL " and b=2"))))
        = toL "a=" ++ sqC :: (toL "John" ++ sqC :: stripCharset (toL " and b=2")) ∧
      stripCharset (('_' :: toL "LATIN1") ++ sqC :: (toL "a" ++ [sqC]))
        = ('_' :: toL "LATIN1") ++ sqC :: (toL "a" ++ [sqC]) :=
  ⟨by decide, by decide,
    C6_utf8mb4_only_amended.1 (toL "a=") (toL "John") (toL " and b=2")
      (by decide) (by decide),
    C6_utf8mb4_only_amended.2.2.1 (toL "LATIN1") (toL "a")
      (by decide) (by decide) (by decide)⟩

/-- Helper: the dot is not a word character. -/
theorem dot_not_word : isWordChar '.' = false := by decide

/-- Helper: a word character never equals the dot. -/
theorem word_beq_dot_false (c : Char) (h : isWordChar c = true) : (c == '.') = false := by
  cases hb : (c == '.') with
  | false => rfl
  | true =>
    have : c = '.' := by simpa using hb
    rw [this] at h
    cases h

/-- Helper: a word character never equals a non-word character. -/
theorem word_beq_nonword_false (c d : Char) (hc : isWordChar c = true)
    (hd : isWordChar d = false) : (c == d) = false := by
  cases hb : (c == d) with
  | false => rfl
  | true =>
    have : c = d := by simpa using hb
    rw [this, hd] at hc
    cases hc

/-- Helper: an identifier followed by a dot is a prefix of another
identifier followed by a dot only when the identifiers are equal. -/
theorem wordDotPre : ∀ (t a R : Str), wordOnly a = true → wordOnly t = true →
    (a ++ ['.']).isPrefixOf (t ++ '.' :: R) = true → a = t := by
  intro t
  induction t with
  | nil =>
    intro a R ha _ hpre
    cases a with
    | nil => rfl
    | cons c a' =>
      rw [wordOnly, List.all_cons, Bool.and_eq_true] at ha
      simp only [List.cons_append, List.nil_append, List.isPrefixOf,
        Bool.and_eq_true] at hpre
      rw [word_beq_dot_false c ha.1] at hpre
      cases hpre.1
  | cons d t' ih =>
    intro a R ha ht hpre
    rw [wordOnly, List.all_cons, Bool.and_eq_true] at ht
    cases a with
    | nil =>
      simp only [List.nil_append, List.cons_append, List.isPrefixOf,
        Bool.and_eq_true] at hpre
      have hd : '.' = d := by simpa using hpre.1
      rw [← hd] at ht
      cases ht.1
    | cons c a' =>
      rw [wordOnly, List.all_cons, Bool.and_eq_true] at ha
      simp only [List.cons_append, List.isPrefixOf, Bool.and_eq_true] at hpre
      have hcd : c = d := by simpa using hpre.1
      rw [hcd]
      have : a' = t' := ih a' R ha.2 ht.2 (by simpa using hpre.2)
      rw [this]

/-- Helper: scanning an identifier followed by a dot from a word state
finds no boundary occurrence inside it. -/
theorem occWordTrue (a : Str) (ha : wordOnly a = true) (hne : a ≠ []) :
    ∀ (tw R : Str), wordOnly tw = true →
      hasAliasOcc a true (tw ++ '.' :: R) = hasAliasOcc a false R := by
  intro tw
  induction tw with
  | nil =>
    intro R _
    simp only [List.nil_append, hasAliasOcc]
    cases a with
    | nil => exact absurd rfl hne
    | cons c a' =>
      rw [wordOnly, List.all_cons, Bool.and_eq_true] at ha
      have hp : ((c :: a') ++ ['.']).isPrefixOf ('.' :: R) = false := by
        simp only [List.cons_append, List.isPrefixOf]
        rw [word_beq_dot_false c ha.1]
        simp
      rw [hp, dot_not_word]
      simp
  | cons d t2 ih =>
    intro R ht
    rw [wordOnly, List.all_cons, Bool.and_eq_true] at ht
    simp only [List.cons_append, hasAliasOcc]
    rw [ht.1]
    simp only [bne_self_eq_false, Bool.false_and, Bool.false_or]
    exact ih R ht.2

/-- Helper: scanning another identifier `t` (different from the alias `a`)
followed by a dot creates no boundary occurrence of `a.`. -/
theorem occAppendWordDot (a t : Str) (ha : wordOnly a = true) (hne : a ≠ [])
    (ht : wordOnly t = true) (hat : a ≠ t) (R : Str) :
    hasAliasOcc a false (t ++ '.' :: R) = hasAliasOcc a false R := by
  cases t with
  | nil =>
    simp only [List.nil_append, hasAliasOcc]
    simp only [dot_not_word, bne_self_eq_false, Bool.false_and, Bool.false_or]
  | cons d t2 =>
    have hd : isWordChar d = true := by
      rw [wordOnly, List.all_cons, Bool.and_eq_true] at ht
      exact ht.1
    have ht2 : wordOnly t2 = true := by
      rw [wordOnly, List.all_cons, Bool.and_eq_true] at ht
      exact ht.2
    simp only [List.cons_append, hasAliasOcc, List.append_eq]
    have hp : (a ++ ['.']).isPrefixOf (d :: (t2 ++ '.' :: R)) = false := by
      cases hb : (a ++ ['.']).isPrefixOf (d :: (t2 ++ '.' :: R)) with
      | false => rfl
      | true => exact absurd (wordDotPre (d :: t2) a R ha ht hb) hat
    rw [hp, Bool.and_false, Bool.false_or, hd]
    exact occWordTrue a ha hne t2 R ht2

/-- Helper: the empty pattern is a prefix of anything. -/
theorem nil_isPrefixOf (l : Str) : ([] : Str).isPrefixOf l = true := by
  cases l <;> rfl

/-- Helper: from a word state, the alias scan never replaces at the current
character, so it copies it and continues. -/
theorem scanTrueStep (a2 t2 : Str) (ha2 : wordOnly a2 = true) (hne2 : a2 ≠ [])
    (n : Nat) (d : Char) (rest : Str) :
    replaceAliasDotFuel a2 t2 (n + 1) true (d :: rest)
      = d :: replaceAliasDotFuel a2 t2 n (isWordChar d) rest := by
  cases hw : isWordChar d with
  | true =>
    simp only [replaceAliasDotFuel, hw]
    simp
  | false =>
    cases a2 with
    | nil => exact absurd rfl hne2
    | cons c a2x =>
      rw [wordOnly, List.all_cons, Bool.and_eq_true] at ha2
      simp only [replaceAliasDotFuel, hw]
      have hpf : ((c :: a2x) ++ ['.']).isPrefixOf (d :: rest) = false := by
        simp only [List.cons_append, List.isPrefixOf]
        rw [word_beq_nonword_false c d ha2.1 hw]
        simp
      simp only [List.cons_append] at hpf ⊢
      rw [hpf]
      simp

/-- Helper: a word-boundary pattern prefix found on the output of an alias
scan started in a word state was already a prefix of the input. -/
theorem transferPre (a2 t2 : Str) (ha2 : wordOnly a2 = true) (hne2 : a2 ≠ []) :
    ∀ (n : Nat) (s x : Str), wordOnly x = true → s.length ≤ n →
      (x ++ ['.']).isPrefixOf (replaceAliasDotFuel a2 t2 n true s) = true →
      (x ++ ['.']).isPrefixOf s = true := by
  intro n
  induction n with
  | zero =>
    intro s x hx hs hpre
    cases s with
    | nil =>
      rw [show replaceAliasDotFuel a2 t2 0 true [] = [] from rfl] at hpre
      rw [prefixOf_nil_false _ (append_singleton_ne_nil x '.')] at hpre
      cases hpre
    | cons d rest => simp at hs
  | succ n ih =>
    intro s x hx hs hpre
    cases s with
    | nil =>
      rw [show replaceAliasDotFuel a2 t2 (n + 1) true [] = [] from rfl] at hpre
      rw [prefixOf_nil_false _ (append_singleton_ne_nil x '.')] at hpre
      cases hpre
    | cons d rest =>
      rw [scanTrueStep a2 t2 ha2 hne2 n d rest] at hpre
      cases x with
      | nil =>
        simp only [List.nil_append, List.isPrefixOf, Bool.and_eq_true] at hpre ⊢
        exact ⟨hpre.1, trivial⟩
      | cons e x2 =>
        have he : isWordChar e = true := by
          rw [wordOnly, List.all_cons, Bool.and_eq_true] at hx
          exact hx.1
        have hx2 : wordOnly x2 = true := by
          rw [wordOnly, List.all_cons, Bool.and_eq_true] at hx
          exact hx.2
        simp only [List.cons_append, List.isPrefixOf, Bool.and_eq_true,
          List.append_eq] at hpre ⊢
        obtain ⟨hed, hrest⟩ := hpre
        refine ⟨hed, ?_⟩
        have hde : e = d := by simpa using hed
        have hwd : isWordChar d = true := by rw [← hde]; exact he
        rw [hwd] at hrest
        exact ih rest x2 hx2 (by simpa using Nat.le_of_succ_le_succ hs) hrest

/-- Helper: where the boundary pattern `a ++ "."` matches, the first
character is a word character (the alias head). -/
theorem head_word_of_pre (a : Str) (ha : wordOnly a = true) (hne : a ≠ [])
    (c : Char) (X : Str) (h : (a ++ ['.']).isPrefixOf (c :: X) = true) :
    isWordChar c = true := by
  cases a with
  | nil => exact absurd rfl hne
  | cons a0 a1 =>
    rw [wordOnly, List.all_cons, Bool.and_eq_true] at ha
    simp only [List.cons_append, List.isPrefixOf, Bool.and_eq_true] at h
    have ha0 : a0 = c := by simpa using h.1
    rw [← ha0]
    exact ha.1

/-- Helper: after one full substitution pass for an alias `a` (with a table
name `t` that is a different identifier), no boundary occurrence of `a.`
remains in the output. -/
theorem mainNoOcc (a t : Str) (ha : wordOnly a = true) (hne : a ≠ [])
    (ht : wordOnly t = true) (hat : a ≠ t) :
    ∀ (n : Nat) (s : Str) (prevW : Bool), s.length ≤ n →
      hasAliasOcc a prevW (replaceAliasDotFuel a t n prevW s) = false := by
  intro n
  induction n with
  | zero =>
    intro s prevW hs
    cases s with
    | nil => cases prevW <;> rfl
    | cons c rest => simp at hs
  | succ n ih =>
    intro s prevW hs
    cases s with
    | nil => cases prevW <;> rfl
    | cons c rest =>
      have hrest : rest.length ≤ n := by
        simp at hs
        omega
      by_cases hm : ((prevW != isWordChar c) && (a ++ ['.']).isPrefixOf (c :: rest)) = true
      · have hscan : replaceAliasDotFuel a t (n + 1) prevW (c :: rest)
            = t ++ '.' :: replaceAliasDotFuel a t n false
                ((c :: rest).drop (a ++ ['.']).length) := by
          simp only [replaceAliasDotFuel, hm]
          simp
        rw [hscan]
        have hw : isWordChar c = true := head_word_of_pre a ha hne c rest (by
          rw [Bool.and_eq_true] at hm
          exact hm.2)
        have hprev : prevW = false := by
          rw [Bool.and_eq_true] at hm
          have hb := hm.1
          rw [hw] at hb
          cases prevW with
          | false => rfl
          | true => simp at hb
        subst hprev
        rw [occAppendWordDot a t ha hne ht hat]
        apply ih
        rw [List.length_drop]
        simp only [List.length_cons, List.length_append, List.length_singleton]
        omega
      · have hscan : replaceAliasDotFuel a t (n + 1) prevW (c :: rest)
            = c :: replaceAliasDotFuel a t n (isWordChar c) rest := by
          simp only [replaceAliasDotFuel]
          rw [if_neg hm]
        rw [hscan]
        simp only [hasAliasOcc]
        rw [Bool.or_eq_false_iff]
        constructor
        · cases hb : ((prevW != isWordChar c)
              && (a ++ ['.']).isPrefixOf (c :: replaceAliasDotFuel a t n (isWordChar c) rest)) with
          | false => rfl
          | true =>
            exfalso
            rw [Bool.and_eq_true] at hb
            have hw : isWordChar c = true := head_word_of_pre a ha hne c _ hb.2
            cases a with
            | nil => exact hne rfl
            | cons a0 a1 =>
              have ha1 : wordOnly a1 = true := by
                rw [wordOnly, List.all_cons, Bool.and_eq_true] at ha
                exact ha.2
              have hpre2 := hb.2
              simp only [List.cons_append, List.isPrefixOf, Bool.and_eq_true] at hpre2
              rw [hw] at hpre2
              have htr : (a1 ++ ['.']).isPrefixOf rest = true :=
                transferPre (a0 :: a1) t ha hne n rest a1 ha1 hrest hpre2.2
              apply hm
              rw [Bool.and_eq_true]
              refine ⟨hb.1, ?_⟩
              simp only [List.cons_append, List.isPrefixOf, Bool.and_eq_true]
              exact ⟨hpre2.1, htr⟩
        · exact ih rest (isWordChar c) hrest

/-- Helper: on a string with no boundary occurrence of the alias, the
substitution pass is the identity. -/
theorem identityNoOcc (a t : Str) :
    ∀ (n : Nat) (s : Str) (prevW : Bool), s.length ≤ n →
      hasAliasOcc a prevW s = false → replaceAliasDotFuel a t n prevW s = s := by
  intro n
  induction n with
  | zero =>
    intro s prevW hs _
    cases s with
    | nil => cases prevW <;> rfl
    | cons c rest => simp at hs
  | succ n ih =>
    intro s prevW hs hocc
    cases s with
    | nil => cases prevW <;> rfl
    | cons c rest =>
      simp only [hasAliasOcc, Bool.or_eq_false_iff] at hocc
      have hscan : replaceAliasDotFuel a t (n + 1) prevW (c :: rest)
          = c :: replaceAliasDotFuel a t n (isWordChar c) rest := by
        simp only [replaceAliasDotFuel, hocc.1]
        simp
      rw [hscan]
      rw [ih rest (isWordChar c) (by simp at hs; omega) hocc.2]

/-- Helper: absence of boundary occurrences carries over to any suffix,
with the scan state updated through the dropped prefix. -/
theorem occSuffix (a : Str) : ∀ (x : Str) (prevW : Bool) (y : Str),
    hasAliasOcc a prevW (x ++ y) = false →
    hasAliasOcc a (x.foldl (fun _ c => isWordChar c) prevW) y = false := by
  intro x
  induction x with
  | nil =>
    intro prevW y h
    simpa using h
  | cons d x2 ih =>
    intro prevW y h
    simp only [List.cons_append, hasAliasOcc, Bool.or_eq_false_iff] at h
    simp only [List.foldl_cons]
    exact ih (isWordChar d) y h.2

/-- Helper: the scan state after a pattern ending in a dot is non-word. -/
theorem foldl_state_dot (x : Str) (b : Bool) :
    ((x ++ ['.']).foldl (fun _ c => isWordChar c) b) = false := by
  rw [List.foldl_append]
  simp [dot_not_word]

/-- Helper: a substitution pass for a different alias `a2` (whose table
name `t2` is an identifier different from `a`) does not create boundary
occurrences of `a.`. -/
theorem preserveNoOcc (a a2 t2 : Str) (ha : wordOnly a = true) (hne : a ≠ [])
    (ha2 : wordOnly a2 = true) (hne2 : a2 ≠ []) (ht2 : wordOnly t2 = true)
    (hat2 : a ≠ t2) :
    ∀ (n : Nat) (s : Str) (prevW : Bool), s.length ≤ n →
      hasAliasOcc a prevW s = false →
      hasAliasOcc a prevW (replaceAliasDotFuel a2 t2 n prevW s) = false := by
  intro n
  induction n with
  | zero =>
    intro s prevW hs _
    cases s with
    | nil => cases prevW <;> rfl
    | cons c rest => simp at hs
  | succ n ih =>
    intro s prevW hs hocc
    cases s with
    | nil => cases prevW <;> rfl
    | cons c rest =>
      have hrest : rest.length ≤ n := by
        simp at hs
        omega
      simp only [hasAliasOcc, Bool.or_eq_false_iff] at hocc
      by_cases hm : ((prevW != isWordChar c) && (a2 ++ ['.']).isPrefixOf (c :: rest)) = true
      · have hscan : replaceAliasDotFuel a2 t2 (n + 1) prevW (c :: rest)
            = t2 ++ '.' :: replaceAliasDotFuel a2 t2 n false
                ((c :: rest).drop (a2 ++ ['.']).length) := by
          simp only [replaceAliasDotFuel, hm]
          simp
        rw [hscan]
        have hw : isWordChar c = true := head_word_of_pre a2 ha2 hne2 c rest (by
          rw [Bool.and_eq_true] at hm
          exact hm.2)
        have hprev : prevW = false := by
          rw [Bool.and_eq_true] at hm
          have hb := hm.1
          rw [hw] at hb
          cases prevW with
          | false => rfl
          | true => simp at hb
        subst hprev
        rw [occAppendWordDot a t2 ha hne ht2 hat2]
        obtain ⟨q, hq⟩ := List.isPrefixOf_iff_prefix.mp (by
          rw [Bool.and_eq_true] at hm
          exact hm.2)
        have hdrop : (c :: rest).drop (a2 ++ ['.']).length = q := by
          rw [← hq, List.drop_left]
        rw [hdrop]
        have hfull : hasAliasOcc a false (c :: rest) = false := by
          simp only [hasAliasOcc]
          rw [Bool.or_eq_false_iff]
          exact hocc
        rw [← hq] at hfull
        have hqocc := occSuffix a (a2 ++ ['.']) false q hfull
        rw [foldl_state_dot] at hqocc
        apply ih q false ?_ hqocc
        have hlq : a2.length + (q.length + 1) = rest.length + 1 := by
          have hc := congrArg List.length hq
          simpa [List.length_append] using hc
        omega
      · have hscan : replaceAliasDotFuel a2 t2 (n + 1) prevW (c :: rest)
            = c :: replaceAliasDotFuel a2 t2 n (isWordChar c) rest := by
          simp only [replaceAliasDotFuel]
          rw [if_neg hm]
        rw [hscan]
        simp only [hasAliasOcc]
        rw [Bool.or_eq_false_iff]
        constructor
        · cases hb : ((prevW != isWordChar c)
              && (a ++ ['.']).isPrefixOf
                  (c :: replaceAliasDotFuel a2 t2 n (isWordChar c) rest)) with
          | false => rfl
          | true =>
            exfalso
            rw [Bool.and_eq_true] at hb
            have hw : isWordChar c = true := head_word_of_pre a ha hne c _ hb.2
            cases a with
            | nil => exact hne rfl
            | cons a0 a1 =>
              have ha1 : wordOnly a1 = true := by
                rw [wordOnly, List.all_cons, Bool.and_eq_true] at ha
                exact ha.2
              have hpre2 := hb.2
              simp only [List.cons_append, List.isPrefixOf, Bool.and_eq_true] at hpre2
              rw [hw] at hpre2
              have htr : (a1 ++ ['.']).isPrefixOf rest = true :=
                transferPre a2 t2 ha2 hne2 n rest a1 ha1 hrest hpre2.2
              have hsrc : ((a0 :: a1) ++ ['.']).isPrefixOf (c :: rest) = true := by
                simp only [List.cons_append, List.isPrefixOf, Bool.and_eq_true]
                exact ⟨hpre2.1, htr⟩
              have := hocc.1
              rw [Bool.and_eq_false_iff] at this
              cases this with
              | inl hbd => rw [hb.1] at hbd; cases hbd
              | inr hpf => rw [hsrc] at hpf; cases hpf
        · exact ih rest (isWordChar c) hrest hocc.2

/-- Helper: absence of boundary occurrences of an alias is preserved by the
remaining substitution passes, provided no table name of those passes
equals the alias. -/
theorem noOccPreservedList (a : Str) (ha : wordOnly a = true) (hne : a ≠ []) :
    ∀ (rest : List (Str × Str)) (s : Str),
      (∀ q ∈ rest, q.1 ≠ [] ∧ wordOnly q.1 = true ∧ wordOnly q.2 = true ∧ a ≠ q.2) →
      hasAliasOcc a false s = false →
      hasAliasOcc a false (substAliases rest s) = false := by
  intro rest
  induction rest with
  | nil =>
    intro s _ h
    simpa [substAliases] using h
  | cons p rest2 ih =>
    intro s hq h
    obtain ⟨a2, t2⟩ := p
    simp only [substAliases]
    apply ih _ (fun q hqq => hq q (List.mem_cons_of_mem _ hqq))
    have hp := hq (a2, t2) (List.mem_cons_self _ _)
    show hasAliasOcc a false (replaceAliasDot a2 t2 s) = false
    unfold replaceAliasDot
    exact preserveNoOcc a a2 t2 ha hne hp.2.1 hp.1 hp.2.2.1 hp.2.2.2
      s.length s false (Nat.le_refl _) h

/-- Helper: after one full alias-substitution pass over the whole map, no
alias of the map has a boundary occurrence left in the output. -/
theorem afterPassNoOcc :
    ∀ (am : List (Str × Str)) (s : Str),
      (∀ p ∈ am, p.1 ≠ [] ∧ wordOnly p.1 = true ∧ wordOnly p.2 = true) →
      (∀ p ∈ am, ∀ q ∈ am, p.1 ≠ q.2) →
      ∀ p ∈ am, hasAliasOcc p.1 false (substAliases am s) = false := by
  intro am
  induction am with
  | nil =>
    intro s _ _ p hp
    cases hp
  | cons e rest ih =>
    intro s h1 h3 p hp
    obtain ⟨a2, t2⟩ := e
    rcases List.mem_cons.mp hp with hph | hpr
    · subst hph
      simp only [substAliases]
      have hh := h1 (a2, t2) (List.mem_cons_self _ _)
      apply noOccPreservedList a2 hh.2.1 hh.1 rest _ (fun q hqq =>
        ⟨(h1 q (List.mem_cons_of_mem _ hqq)).1,
          (h1 q (List.mem_cons_of_mem _ hqq)).2.1,
          (h1 q (List.mem_cons_of_mem _ hqq)).2.2,
          h3 (a2, t2) (List.mem_cons_self _ _) q (List.mem_cons_of_mem _ hqq)⟩)
      show hasAliasOcc a2 false (replaceAliasDot a2 t2 s) = false
      unfold replaceAliasDot
      exact mainNoOcc a2 t2 hh.2.1 hh.1 hh.2.2
        (h3 (a2, t2) (List.mem_cons_self _ _) (a2, t2) (List.mem_cons_self _ _))
        s.length s false (Nat.le_refl _)
    · simp only [substAliases]
      exact ih (replaceAliasDot a2 t2 s)
        (fun q hqq => h1 q (List.mem_cons_of_mem _ hqq))
        (fun q hqq r hrr => h3 q (List.mem_cons_of_mem _ hqq) r (List.mem_cons_of_mem _ hrr))
        p hpr

/-- Helper: a substitution pass over a string with no remaining alias
occurrences is the identity. -/
theorem secondPassId :
    ∀ (am : List (Str × Str)) (s2 : Str),
      (∀ p ∈ am, hasAliasOcc p.1 false s2 = false) →
      substAliases am s2 = s2 := by
  intro am
  induction am with
  | nil =>
    intro s2 _
    rfl
  | cons e rest ih =>
    intro s2 h
    obtain ⟨a2, t2⟩ := e
    simp only [substAliases]
    have hid : replaceAliasDot a2 t2 s2 = s2 := by
      unfold replaceAliasDot
      exact identityNoOcc a2 t2 s2.length s2 false (Nat.le_refl _)
        (h (a2, t2) (List.mem_cons_self _ _))
    rw [hid]
    exact ih s2 (fun p hp => h p (List.mem_cons_of_mem _ hp))

/-- C5 counterexample: on an alias map in which one entry's table name
(`users`) is itself an alias of another entry, one substitution pass leaves
an alias prefix in the output (second conjunct), and a second pass changes
the result again (first conjunct): `u.id=1` becomes `users.id=1` after one
pass and `orders.id=1` after two. -/
theorem C5_counterexample :
    substAliases [(toL "users", toL "orders"), (toL "u", toL "users")]
        (substAliases [(toL "users", toL "orders"), (toL "u", toL "users")]
          (toL "u.id=1"))
      ≠ substAliases [(toL "users", toL "orders"), (toL "u", toL "users")]
          (toL "u.id=1") ∧
    hasAliasOcc (toL "users") false
        (substAliases [(toL "users", toL "orders"), (toL "u", toL "users")]
          (toL "u.id=1")) = true := by
  exact ⟨by decide, by decide⟩

/-- C5 (amended): for every alias map whose aliases are non-empty
identifier tokens (letters, digits, underscore), whose table names are
identifier tokens, and in which no table name occurs as an alias of the
map, the alias-substitution step is idempotent: after one pass no alias
prefix remains at a word boundary, and a second pass is the identity. -/
theorem C5_alias_substitution_idempotent_amended (am : List (Str × Str)) (s : Str)
    (h1 : ∀ p ∈ am, p.1 ≠ [] ∧ wordOnly p.1 = true ∧ wordOnly p.2 = true)
    (h3 : ∀ p ∈ am, ∀ q ∈ am, p.1 ≠ q.2) :
    substAliases am (substAliases am s) = substAliases am s ∧
      ∀ p ∈ am, hasAliasOcc p.1 false (substAliases am s) = false := by
  have hocc := afterPassNoOcc am s h1 h3
  exact ⟨secondPassId am _ hocc, hocc⟩

/-- C5 amended witness: the amended theorem at the repository's test alias
map `u ↦ users, p ↦ posts` on the serialized text `u.active=1 and p.x=2`. -/
theorem C5_alias_substitution_idempotent_amended_witness :
    (∀ p ∈ [(toL "u", toL "users"), (toL "p", toL "posts")],
      p.1 ≠ [] ∧ wordOnly p.1 = true ∧ wordOnly p.2 = true) ∧
    (∀ p ∈ [(toL "u", toL "users"), (toL "p", toL "posts")],
      ∀ q ∈ [(toL "u", toL "users"), (toL "p", toL "posts")], p.1 ≠ q.2) ∧
    (substAliases [(toL "u", toL "users"), (toL "p", toL "posts")]
        (substAliases [(toL "u", toL "users"), (toL "p", toL "posts")]
          (toL "u.active=1 and p.x=2"))
      = substAliases [(toL "u", toL "users"), (toL "p", toL "posts")]
          (toL "u.active=1 and p.x=2") ∧
      ∀ p ∈ [(toL "u", toL "users"), (toL "p", toL "posts")],
        hasAliasOcc p.1 false
          (substAliases [(toL "u", toL "users"), (toL "p", toL "posts")]
            (toL "u.active=1 and p.x=2")) = false) :=
  ⟨by decide, by decide,
    C5_alias_substitution_idempotent_amended
      [(toL "u", toL "users"), (toL "p", toL "posts")]
      (toL "u.active=1 and p.x=2") (by decide) (by decide)⟩
